import Mathlib

/-!
# The spark particle engine of `script.js`

A shallow embedding of the particle engine in `src/script.js` and the
properties of it that the specification states.

Modelling conventions.

* JavaScript numbers are modelled by an arbitrary linearly ordered field `α`
  with a floor function (`ℚ` for evaluation, `ℝ` where trigonometry is
  involved): arithmetic is exact, there is no rounding, no `NaN` and no
  infinity.  Where rounding decides a property it is taken into account in the
  statement: the values of `rand(min, max)` are allowed to reach `max`
  (`RoundedDraws`), and a product such as `(102 / 300) * 600` is located within a
  tolerance instead of being equated with its exact value.
* The host functions `Math.cos`, `Math.sin`, the constant `Math.PI`, the stream
  of values returned by `Math.random()` and `window.devicePixelRatio` are the
  fields of a `Host`.  The engine counts the calls of `Math.random()` it has made
  (`Engine.draws`), so the `k`-th call returns `env.random k`.
* The mutable globals of the script (`origin`, `width`, `height`, the canvas
  metrics, `particles`, `last`, `nextMicro`, `nextBurst`) are the fields of
  `Engine`; every function of the script is a function on `Engine`.
* `Engine.emitLog` is a ghost field: it records the arguments of every call of
  `emit`, in order.  No function reads it.
* The drawing calls on the 2D context (`clearRect`, the gradient, `arc`, `fill`)
  do not touch the engine state and are not modelled.
-/

namespace Spark

/-- Host environment of the script: `Math.PI`, `Math.cos`, `Math.sin`, the
successive results of `Math.random()` and `window.devicePixelRatio`
(`none` when it is undefined).  The only use of `Math.random()` is line 38, so
`random k` is also the number `u` for which the `k`-th call of `rand(min, max)`
returns `u * (max - min) + min`; see `UnitDraws` and `RoundedDraws`. -/
structure Host (α : Type) where
  PI : α
  cos : α → α
  sin : α → α
  random : ℕ → α
  devicePixelRatio : Option α

/-- A point in pixels (`origin`, `ORIGIN_SVG`). -/
structure Point (α : Type) where
  x : α
  y : α
deriving DecidableEq

/-- Result of `scene.getBoundingClientRect()`: only width and height are read. -/
structure Rect (α : Type) where
  width : α
  height : α
deriving DecidableEq

/-- The object literal pushed by `emit` (lines 49-59). -/
structure Particle (α : Type) where
  x : α
  y : α
  vx : α
  vy : α
  life : α
  ttl : α
  size : α
  hue : α
  alpha : α
deriving DecidableEq

/-- What `fitCanvas` writes to the canvas: `canvas.width`, `canvas.height`,
`canvas.style.width`, `canvas.style.height` (the number before `"px"`) and the
six arguments of `ctx.setTransform`. -/
structure Canvas (α : Type) where
  width : α
  height : α
  styleWidth : α
  styleHeight : α
  transform : List α
deriving DecidableEq

/-- The mutable state of the script. -/
structure Engine (α : Type) where
  origin : Point α
  width : α
  height : α
  canvas : Canvas α
  particles : List (Particle α)
  last : α
  nextMicro : α
  nextBurst : α
  draws : ℕ
  emitLog : List (α × α)
deriving DecidableEq

section Defs

variable {α : Type} [LinearOrderedField α] [FloorRing α]

/-- Line 10: `ORIGIN_SVG = { x: 146, y: 102 }`. -/
def ORIGIN_SVG : Point α := ⟨146, 102⟩

/-- Line 35. -/
def MAX_PARTICLES : ℕ := 200

/-- Line 13: `DPR = Math.max(1, window.devicePixelRatio || 1)`; the operand of
`||` is replaced by `1` when it is undefined or `0`. -/
def DPR (env : Host α) : α :=
  max 1 (match env.devicePixelRatio with
    | none => 1
    | some d => if d = 0 then 1 else d)

/-- Lines 16-31: `fitCanvas()`, with the rectangle returned by
`scene.getBoundingClientRect()` as an argument. -/
def fitCanvas (env : Host α) (rect : Rect α) (s : Engine α) : Engine α :=
  let width : α := max 1 ((⌊rect.width⌋ : ℤ) : α)
  let height : α := max 1 ((⌊rect.height⌋ : ℤ) : α)
  { s with
    width := width
    height := height
    canvas :=
      { width := ((⌊width * DPR env⌋ : ℤ) : α)
        height := ((⌊height * DPR env⌋ : ℤ) : α)
        styleWidth := width
        styleHeight := height
        transform := [DPR env, 0, 0, DPR env, 0, 0] }
    origin :=
      { x := ((ORIGIN_SVG : Point α).x / 220) * width
        y := ((ORIGIN_SVG : Point α).y / 300) * height } }

/-- Lines 37-39: `rand(min, max)` when the call of `Math.random()` inside it is
the `k`-th one of the run. -/
def rand (env : Host α) (min max : α) (k : ℕ) : α :=
  env.random k * (max - min) + min

/-- Lines 46-59: the particle built by one iteration of the loop of `emit`, when
`d` calls of `Math.random()` have been made before.  The eight draws are made in
source order: angle, speed, x, y, the pop of vy, ttl, size, hue. -/
def newParticle (env : Host α) (power : α) (origin : Point α) (d : ℕ) : Particle α :=
  let angle := rand env (-env.PI * 0.15) (env.PI * 0.35) d
  let speed := rand env 1.2 3.6 (d + 1) * power
  { x := origin.x + rand env (-1.5) 1.5 (d + 2)
    y := origin.y + rand env (-1.5) 1.5 (d + 3)
    vx := env.cos angle * speed
    vy := -env.sin angle * speed - rand env 0.5 1.2 (d + 4)
    life := 0
    ttl := rand env 300 750 (d + 5)
    size := rand env 0.8 2.0 (d + 6)
    hue := rand env 30 55 (d + 7)
    alpha := 1 }

/-- Lines 46-59: one iteration of the loop of `emit` past the `break`:
`particles.push({...})`. -/
def spawn (env : Host α) (power : α) (s : Engine α) : Engine α :=
  { s with
    particles := s.particles ++ [newParticle env power s.origin s.draws]
    draws := s.draws + 8 }

/-- Lines 42-60: the `for` loop of `emit`, entered with loop variable `i`.  The
loop ends when `i < count` fails or at the `break` of line 43; each other
iteration pushes one particle, which is why the recursion terminates whatever
`count` is. -/
def emitLoop (env : Host α) (count power : α) (i : ℕ) (s : Engine α) : Engine α :=
  if (i : α) < count then
    if MAX_PARTICLES ≤ s.particles.length then s
    else emitLoop env count power (i + 1) (spawn env power s)
  else s
termination_by MAX_PARTICLES - s.particles.length
decreasing_by
  simp only [spawn, List.length_append, List.length_singleton]
  omega

/-- Lines 41-61: `emit(count, power)`.  (Every call in the script passes
`power`; the default value `1` is what `emit count 1` is.)  The call is recorded
in the ghost log. -/
def emit (env : Host α) (count power : α) (s : Engine α) : Engine α :=
  emitLoop env count power 0 { s with emitLog := s.emitLog ++ [(count, power)] }

/-- Line 68: `dt = Math.min(50, now - last)`. -/
def frameDelta (now last : α) : α := min 50 (now - last)

/-- Line 99: `p.life += dt`. -/
def age (dt : α) (p : Particle α) : Particle α :=
  { p with life := p.life + dt }

/-- Lines 105-114: gravity, drag, motion and fade of a particle that was not
removed (its `life` is already updated). -/
def integrate (dt : α) (p : Particle α) : Particle α :=
  let vy1 := p.vy + 0.025 * (dt / 16.67)
  let vx2 := p.vx * 0.996
  let vy2 := vy1 * 0.996
  let t := p.life / p.ttl
  { p with
    vx := vx2
    vy := vy2
    x := p.x + vx2 * (dt / 16.67)
    y := p.y + vy2 * (dt / 16.67)
    alpha := 1 - t * t }

/-- Lines 96-115: the body of the integration loop on one particle: `none` when
the particle is removed (line 100: `p.life > p.ttl`), else the updated
particle. -/
def advance (dt : α) (p : Particle α) : Option (Particle α) :=
  let p1 := age dt p
  if p1.life > p1.ttl then none else some (integrate dt p1)

/-- Lines 95-124: the loop `for (let i = particles.length - 1; i >= 0; i--)`,
about to run with `i = n - 1` (`n = 0`: the loop is over).  `particles.splice(i, 1)`
is `eraseIdx`; the in-place update of `particles[i]` is `set`. -/
def tickLoop (dt : α) : ℕ → List (Particle α) → List (Particle α)
  | 0, ps => ps
  | i + 1, ps =>
    match ps[i]? with
    | none => ps
    | some p =>
      match advance dt p with
      | none => tickLoop dt i (ps.eraseIdx i)
      | some q => tickLoop dt i (ps.set i q)

/-- Lines 72-75: the micro-spark cadence. -/
def microSpark (env : Host α) (now : α) (s : Engine α) : Engine α :=
  if now ≥ s.nextMicro then
    let count : α := ((⌊rand env 2 5 s.draws⌋ : ℤ) : α)
    let s1 := emit env count 0.85 { s with draws := s.draws + 1 }
    { s1 with
      nextMicro := now + rand env 70 140 s1.draws
      draws := s1.draws + 1 }
  else s

/-- Lines 78-81: the burst cadence. -/
def burst (env : Host α) (now : α) (s : Engine α) : Engine α :=
  if now ≥ s.nextBurst then
    let count : α := ((⌊rand env 12 22 s.draws⌋ : ℤ) : α)
    let s1 := emit env count 1.3 { s with draws := s.draws + 1 }
    { s1 with
      nextBurst := now + rand env 800 1400 s1.draws
      draws := s1.draws + 1 }
  else s

/-- Lines 72-81: both cadences, micro first. -/
def schedule (env : Host α) (now : α) (s : Engine α) : Engine α :=
  burst env now (microSpark env now s)

/-- Lines 67-128: `tick(now)`. -/
def tick (env : Host α) (now : α) (s : Engine α) : Engine α :=
  let dt := frameDelta now s.last
  let s1 := schedule env now { s with last := now }
  { s1 with particles := tickLoop dt s1.particles.length s1.particles }

/-- Lines 11, 14, 34, 63-65: the state when the script starts, `t0` being the
value of `performance.now()` and `canvas` the metrics of the canvas element. -/
def init (t0 : α) (canvas : Canvas α) : Engine α :=
  { origin := ⟨0, 0⟩
    width := 0
    height := 0
    canvas := canvas
    particles := []
    last := t0
    nextMicro := t0 + 90
    nextBurst := t0 + 900
    draws := 0
    emitLog := [] }

/-- The events that run code of the engine: an animation frame (`tick`), a
pointer press on the scene (line 137), a resize of the scene (line 131), and a
direct call of `emit`. -/
inductive Op (α : Type) where
  | frame (now : α)
  | pointerdown
  | resize (rect : Rect α)
  | emit (count power : α)

/-- The effect of one event. -/
def step (env : Host α) (s : Engine α) : Op α → Engine α
  | .frame now => tick env now s
  | .pointerdown => emit env 24 1.4 s
  | .resize rect => fitCanvas env rect s
  | .emit count power => emit env count power s

/-- The effect of a sequence of events. -/
def run (env : Host α) (s : Engine α) (ops : List (Op α)) : Engine α :=
  ops.foldl (step env) s

/-- The frames of a sequence of events have non-decreasing timestamps, the
first one not earlier than `last`. -/
def MonotoneFrames (last : α) : List (Op α) → Prop
  | [] => True
  | .frame now :: ops => last ≤ now ∧ MonotoneFrames now ops
  | _ :: ops => MonotoneFrames last ops

/-- Contract of `Math.random()`: every value is in `[0, 1)`. -/
def UnitDraws (env : Host α) : Prop :=
  ∀ k, 0 ≤ env.random k ∧ env.random k < 1

/-- Contract of `rand` that also covers the rounding of line 38.  `Math.random()`
is below 1, but `Math.random() * (max - min) + min` is computed in double
arithmetic and can round up to `max` itself: `rand(12, 22)` is `22.0` for the draw
`1 - 2^-52`, and `rand(2, 5)` is `5.0` for the draw `1 - 2^-53`.  Here
`env.random k` stands for the number `u` with `u * (max - min) + min` equal to the
value that the `k`-th call returns, so `u` ranges over `[0, 1]`, ends included.
`UnitDraws` implies it. -/
def RoundedDraws (env : Host α) : Prop :=
  ∀ k, 0 ≤ env.random k ∧ env.random k ≤ 1

/-- The particle invariant of the data model, with the side condition `0 < ttl`
under which `life / ttl` is a division by a non-zero number. -/
def Healthy (p : Particle α) : Prop :=
  0 ≤ p.life ∧ p.life ≤ p.ttl ∧ 0 ≤ p.alpha ∧ p.alpha ≤ 1 ∧ 0 < p.ttl

/-- One integration step in the words of the specification (section 4.5), with
`k = dt / 16.67`: `life += dt`, `vy += 0.025 k`, `vx *= 0.996`, `vy *= 0.996`,
`x += vx k`, `y += vy k`, `alpha = 1 - (life / ttl)^2`. -/
def specStep (dt : α) (p : Particle α) : Particle α :=
  let k := dt / 16.67
  let life := p.life + dt
  let vx := 0.996 * p.vx
  let vy := 0.996 * (p.vy + 0.025 * k)
  { x := p.x + vx * k
    y := p.y + vy * k
    vx := vx
    vy := vy
    life := life
    ttl := p.ttl
    size := p.size
    hue := p.hue
    alpha := 1 - (life / p.ttl) ^ 2 }

/-- Retirement in the words of the specification: keep, in their order, the
particles with `life + dt ≤ ttl`, each advanced by one integration step. -/
def specRetire (dt : α) (ps : List (Particle α)) : List (Particle α) :=
  (ps.filter (fun p => decide (p.life + dt ≤ p.ttl))).map (specStep dt)

/-- Successive integration steps on one particle, one for each frame delta of
`dts`: `none` as soon as a step removes the particle. -/
def advanceMany : List α → Particle α → Option (Particle α)
  | [], p => some p
  | dt :: dts, p => (advance dt p).bind (advanceMany dts)

/-- The frame deltas of the frames of a sequence of events, `last` being the
timestamp of the frame before. -/
def deltas (last : α) : List (Op α) → List α
  | [] => []
  | .frame now :: ops => frameDelta now last :: deltas now ops
  | _ :: ops => deltas last ops

/-- A host on `ℚ` for evaluating the model: `Math.random()` always returns
`1/2`, the device pixel ratio is `2`, and `cos`, `sin`, `PI` are rational
stand-ins (Taylor polynomials and `355/113`). -/
def demoHost : Host ℚ :=
  { PI := 355 / 113
    cos := fun x => 1 - x ^ 2 / 2
    sin := fun x => x - x ^ 3 / 6
    random := fun _ => 1 / 2
    devicePixelRatio := some 2 }

/-- A host on `ℚ` for the rounding case of `rand`: the calls number 0 and 42 of
`Math.random()` (the counts of the micro and of the burst cadence on a first
frame on which both fire, the micro cadence emitting 5 particles) are draws so
close to 1 that line 38 rounds up to `max`; all other draws are `1/2`. -/
def edgeHost : Host ℚ :=
  { PI := 355 / 113
    cos := fun x => 1 - x ^ 2 / 2
    sin := fun x => x - x ^ 3 / 6
    random := fun k => if k = 0 ∨ k = 42 then 1 else 1 / 2
    devicePixelRatio := some 2 }

/-- Canvas metrics of a default canvas element (300 by 150). -/
def demoCanvas : Canvas α :=
  { width := 300, height := 150, styleWidth := 0, styleHeight := 0, transform := [1, 0, 0, 1, 0, 0] }

/-- The host computes with the real `π`, cosine and sine. -/
def RealTrig (env : Host ℝ) : Prop :=
  env.PI = Real.pi ∧ env.cos = Real.cos ∧ env.sin = Real.sin

/-- A particle one third of whose life is over. -/
def demoParticle : Particle ℚ :=
  { x := 10, y := 20, vx := 1, vy := -1, life := 100, ttl := 300, size := 1, hue := 40,
    alpha := 8 / 9 }

end Defs

section Lemmas

variable {α : Type} [LinearOrderedField α]

/-! ### The emitter -/

lemma emitLoop_unfold (env : Host α) (count power : α) (i : ℕ) (s : Engine α) :
    emitLoop env count power i s =
      if (i : α) < count then
        if MAX_PARTICLES ≤ s.particles.length then s
        else emitLoop env count power (i + 1) (spawn env power s)
      else s := by
  rw [emitLoop]

lemma spawn_particles (env : Host α) (power : α) (s : Engine α) :
    (spawn env power s).particles =
      s.particles ++ [newParticle env power s.origin s.draws] := rfl

lemma spawn_length (env : Host α) (power : α) (s : Engine α) :
    (spawn env power s).particles.length = s.particles.length + 1 := by
  simp [spawn]

/-- The loop of `emit` never takes the pool above the cap. -/
lemma emitLoop_length_le (env : Host α) (count power : α) (i : ℕ) (s : Engine α)
    (h : s.particles.length ≤ MAX_PARTICLES) :
    (emitLoop env count power i s).particles.length ≤ MAX_PARTICLES := by
  induction i, s using emitLoop.induct env count power with
  | case1 i s hi hfull => rw [emitLoop_unfold, if_pos hi, if_pos hfull]; exact h
  | case2 i s hi hfull ih =>
    rw [emitLoop_unfold, if_pos hi, if_neg hfull]
    apply ih
    rw [spawn_length]
    omega
  | case3 i s hi => rw [emitLoop_unfold, if_neg hi]; exact h

/-- With `k` iterations left, the loop of `emit` adds `k` particles or fills the
pool. -/
lemma emitLoop_length_nat (env : Host α) (power : α) (k : ℕ) :
    ∀ (i : ℕ) (s : Engine α), s.particles.length ≤ MAX_PARTICLES →
      (emitLoop env ((i + k : ℕ) : α) power i s).particles.length =
        min (s.particles.length + k) MAX_PARTICLES := by
  induction k with
  | zero =>
    intro i s h
    rw [emitLoop_unfold, if_neg (by simp)]
    simp [h]
  | succ k ih =>
    intro i s h
    have hi : (i : α) < ((i + (k + 1) : ℕ) : α) := by
      exact_mod_cast (by omega : i < i + (k + 1))
    rw [emitLoop_unfold, if_pos hi]
    by_cases hfull : MAX_PARTICLES ≤ s.particles.length
    · rw [if_pos hfull]
      omega
    · rw [if_neg hfull]
      have e : i + (k + 1) = (i + 1) + k := by omega
      rw [e, ih (i + 1) (spawn env power s) (by rw [spawn_length]; omega), spawn_length]
      omega

/-- What the loop of `emit` does to the state: it appends `k` new particles,
built from consecutive groups of eight draws, and changes nothing else. -/
lemma emitLoop_eq (env : Host α) (count power : α) (i : ℕ) (s : Engine α) :
    ∃ k : ℕ, emitLoop env count power i s =
      { s with
        particles := s.particles ++
          (List.range k).map (fun j => newParticle env power s.origin (s.draws + 8 * j))
        draws := s.draws + 8 * k } := by
  induction i, s using emitLoop.induct env count power with
  | case1 i s hi hfull =>
    exact ⟨0, by rw [emitLoop_unfold, if_pos hi, if_pos hfull]; simp⟩
  | case2 i s hi hfull ih =>
    obtain ⟨k, hk⟩ := ih
    refine ⟨k + 1, ?_⟩
    rw [emitLoop_unfold, if_pos hi, if_neg hfull, hk]
    have hmap : List.map (fun j => newParticle env power s.origin (s.draws + 8 + 8 * j))
          (List.range k) =
        List.map ((fun j => newParticle env power s.origin (s.draws + 8 * j)) ∘ Nat.succ)
          (List.range k) := by
      apply List.map_congr_left
      intro j _
      simp only [Function.comp_apply, Nat.succ_eq_add_one]
      congr 1
      ring
    have hdraws : s.draws + 8 + 8 * k = s.draws + 8 * (k + 1) := by ring
    simp only [spawn, List.append_assoc, List.singleton_append, List.range_succ_eq_map,
      List.map_cons, List.map_map, mul_zero, add_zero, hmap, hdraws]
  | case3 i s hi =>
    exact ⟨0, by rw [emitLoop_unfold, if_neg hi]; simp⟩

lemma emit_eq (env : Host α) (count power : α) (s : Engine α) :
    ∃ k : ℕ, emit env count power s =
      { s with
        particles := s.particles ++
          (List.range k).map (fun j => newParticle env power s.origin (s.draws + 8 * j))
        draws := s.draws + 8 * k
        emitLog := s.emitLog ++ [(count, power)] } := by
  obtain ⟨k, hk⟩ := emitLoop_eq env count power 0
    { s with emitLog := s.emitLog ++ [(count, power)] }
  exact ⟨k, by rw [emit, hk]⟩

lemma emit_last (env : Host α) (count power : α) (s : Engine α) :
    (emit env count power s).last = s.last := by
  obtain ⟨k, hk⟩ := emit_eq env count power s
  rw [hk]

lemma emit_nextMicro (env : Host α) (count power : α) (s : Engine α) :
    (emit env count power s).nextMicro = s.nextMicro := by
  obtain ⟨k, hk⟩ := emit_eq env count power s
  rw [hk]

lemma emit_nextBurst (env : Host α) (count power : α) (s : Engine α) :
    (emit env count power s).nextBurst = s.nextBurst := by
  obtain ⟨k, hk⟩ := emit_eq env count power s
  rw [hk]

lemma emit_emitLog (env : Host α) (count power : α) (s : Engine α) :
    (emit env count power s).emitLog = s.emitLog ++ [(count, power)] := by
  obtain ⟨k, hk⟩ := emit_eq env count power s
  rw [hk]

lemma emit_length_le (env : Host α) (count power : α) (s : Engine α)
    (h : s.particles.length ≤ MAX_PARTICLES) :
    (emit env count power s).particles.length ≤ MAX_PARTICLES :=
  emitLoop_length_le env count power 0 _ h

/-! ### The integration loop -/

/-- Loop invariant of the reverse loop: the particles at indices `≥ n` are
already updated, the ones before index `n` are still to be visited. -/
lemma tickLoop_append (dt : α) (pre suf : List (Particle α)) :
    tickLoop dt pre.length (pre ++ suf) = pre.filterMap (advance dt) ++ suf := by
  induction pre using List.reverseRecOn generalizing suf with
  | nil => simp [tickLoop]
  | append_singleton pre p ih =>
    have hget : (pre ++ p :: suf)[pre.length]? = some p := by
      rw [List.getElem?_append_right (le_refl _)]
      simp
    have herase : (pre ++ p :: suf).eraseIdx pre.length = pre ++ suf := by
      rw [List.eraseIdx_append_of_length_le (le_refl _)]
      simp
    have hset : ∀ q, (pre ++ p :: suf).set pre.length q = pre ++ q :: suf := by
      intro q
      rw [List.set_append_right _ _ (le_refl _)]
      simp
    rw [List.length_append, List.length_singleton, List.append_assoc,
      List.singleton_append, tickLoop, hget]
    cases hadv : advance dt p with
    | none =>
      simp only [herase, ih, List.filterMap_append, List.filterMap_cons, hadv,
        List.filterMap_nil, List.append_nil]
    | some q =>
      simp only [hset, ih, List.filterMap_append, List.filterMap_cons, hadv,
        List.filterMap_nil, List.append_assoc, List.singleton_append]

/-- The integration loop is `filterMap advance`. -/
lemma tickLoop_eq_filterMap (dt : α) (ps : List (Particle α)) :
    tickLoop dt ps.length ps = ps.filterMap (advance dt) := by
  simpa using tickLoop_append dt ps []

lemma tickLoop_length_le (dt : α) (ps : List (Particle α)) :
    (tickLoop dt ps.length ps).length ≤ ps.length := by
  rw [tickLoop_eq_filterMap]
  exact List.length_filterMap_le _ _

lemma advance_eq_specStep (dt : α) (p : Particle α) :
    advance dt p = if p.life + dt ≤ p.ttl then some (specStep dt p) else none := by
  unfold advance
  by_cases h : p.life + dt ≤ p.ttl
  · rw [if_pos h, if_neg (by simpa [age] using h)]
    simp only [integrate, age, specStep, Option.some.injEq, Particle.mk.injEq, true_and,
      and_true]
    refine ⟨?_, ?_, ?_, ?_, ?_⟩ <;> ring
  · rw [if_neg h, if_pos (by simpa [age] using h)]

lemma filterMap_advance (dt : α) (ps : List (Particle α)) :
    ps.filterMap (advance dt) = specRetire dt ps := by
  induction ps with
  | nil => rfl
  | cons p ps ih =>
    unfold specRetire at ih ⊢
    rw [List.filterMap_cons, advance_eq_specStep, ih]
    by_cases h : p.life + dt ≤ p.ttl
    · simp [h]
    · simp [h]

/-! ### The scheduler -/

section Scheduler

variable [FloorRing α]

lemma microSpark_length_le (env : Host α) (now : α) (s : Engine α)
    (h : s.particles.length ≤ MAX_PARTICLES) :
    (microSpark env now s).particles.length ≤ MAX_PARTICLES := by
  unfold microSpark
  split
  · exact emit_length_le env _ _ _ h
  · exact h

lemma burst_length_le (env : Host α) (now : α) (s : Engine α)
    (h : s.particles.length ≤ MAX_PARTICLES) :
    (burst env now s).particles.length ≤ MAX_PARTICLES := by
  unfold burst
  split
  · exact emit_length_le env _ _ _ h
  · exact h

lemma schedule_length_le (env : Host α) (now : α) (s : Engine α)
    (h : s.particles.length ≤ MAX_PARTICLES) :
    (schedule env now s).particles.length ≤ MAX_PARTICLES :=
  burst_length_le env now _ (microSpark_length_le env now s h)

lemma tick_particles (env : Host α) (now : α) (s : Engine α) :
    (tick env now s).particles =
      (schedule env now { s with last := now }).particles.filterMap
        (advance (frameDelta now s.last)) := by
  unfold tick
  exact tickLoop_eq_filterMap _ _

lemma tick_length_le (env : Host α) (now : α) (s : Engine α)
    (h : s.particles.length ≤ MAX_PARTICLES) :
    (tick env now s).particles.length ≤ MAX_PARTICLES := by
  rw [tick_particles]
  exact le_trans (List.length_filterMap_le _ _) (schedule_length_le env now _ h)

lemma step_length_le (env : Host α) (s : Engine α) (op : Op α)
    (h : s.particles.length ≤ MAX_PARTICLES) :
    (step env s op).particles.length ≤ MAX_PARTICLES := by
  cases op with
  | frame now => exact tick_length_le env now s h
  | pointerdown => exact emit_length_le env _ _ s h
  | resize rect => exact h
  | emit count power => exact emit_length_le env _ _ s h

lemma run_length_le (env : Host α) (ops : List (Op α)) :
    ∀ s : Engine α, s.particles.length ≤ MAX_PARTICLES →
      (run env s ops).particles.length ≤ MAX_PARTICLES := by
  induction ops with
  | nil => intro s h; exact h
  | cons op ops ih => intro s h; exact ih _ (step_length_le env s op h)

/-- A frame before both deadlines only integrates the pool. -/
lemma tick_quiet (env : Host α) (now : α) (s : Engine α) (hm : now < s.nextMicro)
    (hb : now < s.nextBurst) :
    tick env now s =
      { s with
        last := now
        particles := s.particles.filterMap (advance (frameDelta now s.last)) } := by
  have hs : schedule env now { s with last := now } = { s with last := now } := by
    unfold schedule microSpark
    rw [if_neg (not_le.2 hm)]
    unfold burst
    rw [if_neg (not_le.2 hb)]
  unfold tick
  simp only [hs, tickLoop_eq_filterMap]

lemma microSpark_last (env : Host α) (now : α) (s : Engine α) :
    (microSpark env now s).last = s.last := by
  unfold microSpark
  split
  · simp only [emit_last]
  · rfl

lemma burst_last (env : Host α) (now : α) (s : Engine α) :
    (burst env now s).last = s.last := by
  unfold burst
  split
  · simp only [emit_last]
  · rfl

lemma tick_last (env : Host α) (now : α) (s : Engine α) :
    (tick env now s).last = now := by
  simp only [tick, schedule, burst_last, microSpark_last]

lemma step_last (env : Host α) (s : Engine α) (op : Op α) :
    (step env s op).last = match op with
      | .frame now => now
      | _ => s.last := by
  cases op with
  | frame now => exact tick_last env now s
  | pointerdown => exact emit_last env _ _ s
  | resize rect => rfl
  | emit count power => exact emit_last env _ _ s

/-! ### The particle invariant -/

omit [FloorRing α] in
lemma rand_mem (env : Host α) (hr : UnitDraws env) (lo hi : α) (h : lo ≤ hi) (k : ℕ) :
    lo ≤ rand env lo hi k ∧ rand env lo hi k ≤ hi := by
  obtain ⟨h0, h1⟩ := hr k
  unfold rand
  constructor
  · nlinarith
  · nlinarith

omit [FloorRing α] in
lemma newParticle_healthy (env : Host α) (hr : UnitDraws env) (power : α) (o : Point α)
    (d : ℕ) : Healthy (newParticle env power o d) := by
  have h := (rand_mem env hr 300 750 (by norm_num) (d + 5)).1
  simp only [Healthy, newParticle]
  refine ⟨le_refl _, ?_, ?_, ?_, ?_⟩ <;> linarith

omit [FloorRing α] in
lemma emit_healthy (env : Host α) (hr : UnitDraws env) (count power : α) (s : Engine α)
    (h : ∀ p ∈ s.particles, Healthy p) :
    ∀ p ∈ (emit env count power s).particles, Healthy p := by
  obtain ⟨k, hk⟩ := emit_eq env count power s
  rw [hk]
  intro p hp
  simp only [List.mem_append, List.mem_map, List.mem_range] at hp
  rcases hp with hp | ⟨j, _, rfl⟩
  · exact h p hp
  · exact newParticle_healthy env hr _ _ _

omit [FloorRing α] in
lemma frameDelta_nonneg (now last : α) (h : last ≤ now) : 0 ≤ frameDelta now last := by
  unfold frameDelta
  exact le_min (by norm_num) (by linarith)

omit [FloorRing α] in
lemma advance_healthy (dt : α) (hdt : 0 ≤ dt) (p q : Particle α) (hp : Healthy p)
    (h : advance dt p = some q) : Healthy q := by
  obtain ⟨h0, _, _, _, httl⟩ := hp
  rw [advance_eq_specStep] at h
  split at h
  · next hle =>
    cases h
    have hlife : 0 ≤ p.life + dt := by linarith
    have ht0 : 0 ≤ (p.life + dt) / p.ttl := div_nonneg hlife httl.le
    have ht1 : (p.life + dt) / p.ttl ≤ 1 := (div_le_one httl).2 hle
    simp only [Healthy, specStep]
    refine ⟨hlife, hle, ?_, ?_, httl⟩
    · nlinarith
    · nlinarith
  · cases h

/-! ### Deadlines -/

lemma microSpark_nextBurst (env : Host α) (now : α) (s : Engine α) :
    (microSpark env now s).nextBurst = s.nextBurst := by
  unfold microSpark
  split
  · simp only [emit_nextBurst]
  · rfl

lemma microSpark_nextMicro (env : Host α) (now : α) (s : Engine α) :
    ∃ d, (microSpark env now s).nextMicro =
      if now ≥ s.nextMicro then now + rand env 70 140 d else s.nextMicro := by
  unfold microSpark
  split
  · exact ⟨_, rfl⟩
  · exact ⟨0, rfl⟩

lemma microSpark_emitLog (env : Host α) (now : α) (s : Engine α) :
    (microSpark env now s).emitLog = s.emitLog ++
      if now ≥ s.nextMicro then [(((⌊rand env 2 5 s.draws⌋ : ℤ) : α), 0.85)] else [] := by
  unfold microSpark
  split
  · simp only [emit_emitLog]
  · simp

lemma burst_nextMicro (env : Host α) (now : α) (s : Engine α) :
    (burst env now s).nextMicro = s.nextMicro := by
  unfold burst
  split
  · simp only [emit_nextMicro]
  · rfl

lemma burst_nextBurst (env : Host α) (now : α) (s : Engine α) :
    ∃ d, (burst env now s).nextBurst =
      if now ≥ s.nextBurst then now + rand env 800 1400 d else s.nextBurst := by
  unfold burst
  split
  · exact ⟨_, rfl⟩
  · exact ⟨0, rfl⟩

lemma burst_emitLog (env : Host α) (now : α) (s : Engine α) :
    (burst env now s).emitLog = s.emitLog ++
      if now ≥ s.nextBurst then [(((⌊rand env 12 22 s.draws⌋ : ℤ) : α), 1.3)] else [] := by
  unfold burst
  split
  · simp only [emit_emitLog]
  · simp

lemma tick_nextMicro (env : Host α) (now : α) (s : Engine α) :
    ∃ d, (tick env now s).nextMicro =
      if now ≥ s.nextMicro then now + rand env 70 140 d else s.nextMicro := by
  obtain ⟨d, hd⟩ := microSpark_nextMicro env now { s with last := now }
  exact ⟨d, by simp only [tick, schedule, burst_nextMicro, hd]⟩

lemma tick_nextBurst (env : Host α) (now : α) (s : Engine α) :
    ∃ d, (tick env now s).nextBurst =
      if now ≥ s.nextBurst then now + rand env 800 1400 d else s.nextBurst := by
  obtain ⟨d, hd⟩ := burst_nextBurst env now (microSpark env now { s with last := now })
  exact ⟨d, by simp only [tick, schedule, hd, microSpark_nextBurst]⟩

lemma tick_emitLog (env : Host α) (now : α) (s : Engine α) :
    ∃ d, (tick env now s).emitLog = s.emitLog ++
      (if now ≥ s.nextMicro then [(((⌊rand env 2 5 s.draws⌋ : ℤ) : α), 0.85)] else []) ++
      (if now ≥ s.nextBurst then [(((⌊rand env 12 22 d⌋ : ℤ) : α), 1.3)] else []) := by
  refine ⟨(microSpark env now { s with last := now }).draws, ?_⟩
  simp only [tick, schedule, burst_emitLog, microSpark_emitLog, microSpark_nextBurst]

/-- On a run with monotone frames both deadlines stay within one period of `last`. -/
lemma step_deadlines (env : Host α) (hr : UnitDraws env) (s : Engine α) (op : Op α)
    (hm : MonotoneFrames s.last [op])
    (h : s.nextMicro ≤ s.last + 140 ∧ s.nextBurst ≤ s.last + 1400) :
    (step env s op).nextMicro ≤ (step env s op).last + 140 ∧
      (step env s op).nextBurst ≤ (step env s op).last + 1400 := by
  cases op with
  | frame now =>
    simp only [MonotoneFrames, and_true] at hm
    obtain ⟨d1, h1⟩ := tick_nextMicro env now s
    obtain ⟨d2, h2⟩ := tick_nextBurst env now s
    simp only [step, tick_last, h1, h2]
    have b1 := (rand_mem env hr 70 140 (by norm_num) d1).2
    have b2 := (rand_mem env hr 800 1400 (by norm_num) d2).2
    constructor
    · split
      · linarith
      · linarith [h.1]
    · split
      · linarith
      · linarith [h.2]
  | pointerdown => simpa only [step, emit_last, emit_nextMicro, emit_nextBurst] using h
  | resize rect => exact h
  | emit count power => simpa only [step, emit_last, emit_nextMicro, emit_nextBurst] using h

lemma run_deadlines (env : Host α) (hr : UnitDraws env) (ops : List (Op α)) :
    ∀ s : Engine α, MonotoneFrames s.last ops →
      s.nextMicro ≤ s.last + 140 ∧ s.nextBurst ≤ s.last + 1400 →
      (run env s ops).nextMicro ≤ (run env s ops).last + 140 ∧
        (run env s ops).nextBurst ≤ (run env s ops).last + 1400 := by
  induction ops with
  | nil => intro s _ h; exact h
  | cons op ops ih =>
    intro s hm h
    have hop : MonotoneFrames s.last [op] := by
      cases op <;> simp only [MonotoneFrames, and_true] at hm ⊢
      exact hm.1
    refine ih (step env s op) ?_ (step_deadlines env hr s op hop h)
    rw [step_last]
    cases op <;> simp only [MonotoneFrames] at hm ⊢
    · exact hm.2
    all_goals exact hm

omit [FloorRing α] in
lemma emit_subset (env : Host α) (count power : α) (s : Engine α) :
    s.particles ⊆ (emit env count power s).particles := by
  obtain ⟨k, hk⟩ := emit_eq env count power s
  rw [hk]
  exact List.subset_append_left _ _

lemma schedule_subset (env : Host α) (now : α) (s : Engine α) :
    s.particles ⊆ (schedule env now s).particles := by
  have hm : s.particles ⊆ (microSpark env now s).particles := by
    unfold microSpark
    split
    · exact emit_subset env _ _ { s with draws := s.draws + 1 }
    · exact List.Subset.refl _
  refine List.Subset.trans hm ?_
  unfold schedule burst
  split
  · exact emit_subset env _ _
      { microSpark env now s with draws := (microSpark env now s).draws + 1 }
  · exact List.Subset.refl _

/-! ### The coordinate mapper -/

omit [FloorRing α] in
lemma one_le_DPR (env : Host α) : 1 ≤ DPR env := le_max_left _ _

lemma schedule_healthy (env : Host α) (hr : UnitDraws env) (now : α) (s : Engine α)
    (h : ∀ p ∈ s.particles, Healthy p) :
    ∀ p ∈ (schedule env now s).particles, Healthy p := by
  have hm : ∀ p ∈ (microSpark env now s).particles, Healthy p := by
    unfold microSpark
    split
    · exact emit_healthy env hr _ _ _ h
    · exact h
  unfold schedule burst
  split
  · exact emit_healthy env hr _ _ _ hm
  · exact hm

lemma tick_healthy (env : Host α) (hr : UnitDraws env) (now : α) (s : Engine α)
    (hnow : s.last ≤ now) (h : ∀ p ∈ s.particles, Healthy p) :
    ∀ p ∈ (tick env now s).particles, Healthy p := by
  intro q hq
  rw [tick_particles, List.mem_filterMap] at hq
  obtain ⟨p, hp, hadv⟩ := hq
  exact advance_healthy _ (frameDelta_nonneg now s.last hnow) p q
    (schedule_healthy env hr now { s with last := now } h p hp) hadv

lemma run_healthy (env : Host α) (hr : UnitDraws env) (ops : List (Op α)) :
    ∀ s : Engine α, MonotoneFrames s.last ops → (∀ p ∈ s.particles, Healthy p) →
      ∀ p ∈ (run env s ops).particles, Healthy p := by
  induction ops with
  | nil => intro s _ h; exact h
  | cons op ops ih =>
    intro s hm h
    refine ih (step env s op) ?_ ?_
    · rw [step_last]
      cases op <;> simp only [MonotoneFrames] at hm ⊢
      · exact hm.2
      all_goals exact hm
    · cases op with
      | frame now => exact tick_healthy env hr now s hm.1 h
      | pointerdown => exact emit_healthy env hr _ _ s h
      | resize rect => exact h
      | emit count power => exact emit_healthy env hr _ _ s h

omit [FloorRing α] in
lemma monotoneFrames_take (ops : List (Op α)) :
    ∀ (last : α) (n : ℕ), MonotoneFrames last ops → MonotoneFrames last (ops.take n) := by
  induction ops with
  | nil => intro last n h; simpa using h
  | cons op ops ih =>
    intro last n h
    cases n with
    | zero => simp [MonotoneFrames]
    | succ n =>
      cases op <;> simp only [List.take_succ_cons, MonotoneFrames] at h ⊢
      · exact ⟨h.1, ih _ n h.2⟩
      all_goals exact ih _ n h

end Scheduler

/-! ### Emitted particles and their survival -/

lemma emit_append (env : Host α) (count power : α) (s : Engine α) :
    ∃ new, (emit env count power s).particles = s.particles ++ new ∧
      ∀ p ∈ new, ∃ d, p = newParticle env power s.origin d := by
  obtain ⟨k, hk⟩ := emit_eq env count power s
  refine ⟨(List.range k).map (fun j => newParticle env power s.origin (s.draws + 8 * j)),
    by rw [hk], ?_⟩
  intro p hp
  simp only [List.mem_map, List.mem_range] at hp
  obtain ⟨j, _, rfl⟩ := hp
  exact ⟨_, rfl⟩

lemma emit_origin (env : Host α) (count power : α) (s : Engine α) :
    (emit env count power s).origin = s.origin := by
  obtain ⟨k, hk⟩ := emit_eq env count power s
  rw [hk]

lemma emit_length_nat (env : Host α) (n : ℕ) (power : α) (s : Engine α)
    (h : s.particles.length ≤ MAX_PARTICLES) :
    (emit env (n : α) power s).particles.length =
      min (s.particles.length + n) MAX_PARTICLES := by
  have := emitLoop_length_nat env power n 0
    { s with emitLog := s.emitLog ++ [((n : α), power)] } h
  simpa [emit] using this

lemma emit_draws_nat (env : Host α) (n : ℕ) (power : α) (s : Engine α)
    (h : s.particles.length + n ≤ MAX_PARTICLES) :
    (emit env (n : α) power s).draws = s.draws + 8 * n := by
  have hl := emit_length_nat env n power s (by omega)
  obtain ⟨k, hk⟩ := emit_eq env (n : α) power s
  rw [hk] at hl ⊢
  simp only [List.length_append, List.length_map, List.length_range] at hl
  have : k = n := by omega
  rw [this]

lemma frameDelta_le (now last : α) : frameDelta now last ≤ 50 := min_le_left _ _

lemma advance_of_le (dt : α) (p : Particle α) (h : p.life + dt ≤ p.ttl) :
    advance dt p = some (specStep dt p) := by
  rw [advance_eq_specStep, if_pos h]

lemma newParticle_fresh (env : Host α) (hr : UnitDraws env) (power : α) (o : Point α)
    (d : ℕ) : (newParticle env power o d).life = 0 ∧ 300 ≤ (newParticle env power o d).ttl :=
  ⟨rfl, (rand_mem env hr 300 750 (by norm_num) (d + 5)).1⟩

lemma filterMap_advance_all (dt : α) (ps : List (Particle α))
    (h : ∀ p ∈ ps, p.life + dt ≤ p.ttl) :
    ps.filterMap (advance dt) = ps.map (specStep dt) := by
  induction ps with
  | nil => rfl
  | cons p ps ih =>
    rw [List.filterMap_cons, advance_of_le dt p (h p (List.mem_cons_self _ _)),
      ih (fun q hq => h q (List.mem_cons_of_mem _ hq))]
    rfl

lemma advanceMany_fields (dts : List α) :
    ∀ p q : Particle α, advanceMany dts p = some q →
      q.ttl = p.ttl ∧ q.size = p.size ∧ q.hue = p.hue := by
  induction dts with
  | nil =>
    intro p q h
    simp only [advanceMany, Option.some.injEq] at h
    subst h
    exact ⟨rfl, rfl, rfl⟩
  | cons dt dts ih =>
    intro p q h
    rw [advanceMany, advance_eq_specStep] at h
    split at h
    · obtain ⟨h1, h2, h3⟩ := ih _ _ h
      exact ⟨h1, h2, h3⟩
    · cases h

/-! Drag over several frames. -/

lemma advanceMany_vx (dts : List α) :
    ∀ p q : Particle α, advanceMany dts p = some q → q.vx = 0.996 ^ dts.length * p.vx := by
  induction dts with
  | nil =>
    intro p q h
    simp only [advanceMany, Option.some.injEq] at h
    subst h
    simp
  | cons dt dts ih =>
    intro p q h
    rw [advanceMany, advance_eq_specStep] at h
    split at h
    · rw [ih _ _ h]
      simp only [specStep, List.length_cons, pow_succ]
      ring
    · cases h

section Survival

variable [FloorRing α]

lemma microSpark_origin (env : Host α) (now : α) (s : Engine α) :
    (microSpark env now s).origin = s.origin := by
  unfold microSpark
  split
  · simp only [emit_origin]
  · rfl

lemma schedule_append (env : Host α) (now : α) (s : Engine α) :
    ∃ new, (schedule env now s).particles = s.particles ++ new ∧
      ∀ p ∈ new, ∃ power d, p = newParticle env power s.origin d := by
  have hm : ∃ new, (microSpark env now s).particles = s.particles ++ new ∧
      ∀ p ∈ new, ∃ power d, p = newParticle env power s.origin d := by
    unfold microSpark
    split
    · obtain ⟨new, h1, h2⟩ := emit_append env ((⌊rand env 2 5 s.draws⌋ : ℤ) : α) 0.85
        { s with draws := s.draws + 1 }
      exact ⟨new, h1, fun p hp => ⟨_, h2 p hp⟩⟩
    · exact ⟨[], by simp, by simp⟩
  obtain ⟨new1, h1, h1'⟩ := hm
  unfold schedule burst
  split
  · obtain ⟨new2, h2, h2'⟩ := emit_append env
      ((⌊rand env 12 22 (microSpark env now s).draws⌋ : ℤ) : α) 1.3
      { microSpark env now s with draws := (microSpark env now s).draws + 1 }
    refine ⟨new1 ++ new2, ?_, ?_⟩
    · change (emit env _ 1.3 _).particles = _
      rw [h2]
      change (microSpark env now s).particles ++ new2 = _
      rw [h1, List.append_assoc]
    · intro p hp
      rcases List.mem_append.1 hp with hp | hp
      · exact h1' p hp
      · obtain ⟨d, hd⟩ := h2' p hp
        refine ⟨1.3, d, ?_⟩
        rw [hd]
        change newParticle env 1.3 (microSpark env now s).origin d = _
        rw [microSpark_origin]
  · exact ⟨new1, h1, h1'⟩

lemma survive_run (env : Host α) (ops : List (Op α)) :
    ∀ (s : Engine α) (p : Particle α), p ∈ s.particles →
      p.life + 50 * ((deltas s.last ops).length : α) ≤ p.ttl →
      ∃ q ∈ (run env s ops).particles, advanceMany (deltas s.last ops) p = some q := by
  induction ops with
  | nil => intro s p hp _; exact ⟨p, hp, rfl⟩
  | cons op ops ih =>
    intro s p hp hle
    cases op with
    | frame now =>
      simp only [deltas, List.length_cons, Nat.cast_add, Nat.cast_one] at hle ⊢
      have hn : (0 : α) ≤ ((deltas now ops).length : α) := Nat.cast_nonneg _
      have hdt := frameDelta_le now s.last
      have hadv := advance_of_le (frameDelta now s.last) p (by nlinarith)
      have hq : specStep (frameDelta now s.last) p ∈ (tick env now s).particles := by
        rw [tick_particles, List.mem_filterMap]
        exact ⟨p, schedule_subset env now _ hp, hadv⟩
      obtain ⟨q, hq1, hq2⟩ := ih (tick env now s) _ hq (by
        rw [tick_last]
        simp only [specStep]
        nlinarith)
      rw [tick_last] at hq2
      exact ⟨q, hq1, by rw [advanceMany, hadv]; exact hq2⟩
    | pointerdown =>
      have := ih (emit env 24 1.4 s) p (emit_subset env _ _ s hp) (by rw [emit_last]; exact hle)
      rw [emit_last] at this
      exact this
    | resize rect => exact ih (fitCanvas env rect s) p hp hle
    | emit count power =>
      have := ih (emit env count power s) p (emit_subset env _ _ s hp)
        (by rw [emit_last]; exact hle)
      rw [emit_last] at this
      exact this

/-! ### Cold start -/

omit [FloorRing α] in
lemma unitDraws_rounded (env : Host α) (hr : UnitDraws env) : RoundedDraws env :=
  fun k => ⟨(hr k).1, (hr k).2.le⟩

omit [FloorRing α] in
lemma rand_mem_rounded (env : Host α) (hr : RoundedDraws env) (lo hi : α) (h : lo ≤ hi)
    (k : ℕ) : lo ≤ rand env lo hi k ∧ rand env lo hi k ≤ hi := by
  obtain ⟨h0, h1⟩ := hr k
  unfold rand
  constructor
  · nlinarith
  · nlinarith

omit [FloorRing α] in
lemma newParticle_fresh_rounded (env : Host α) (hr : RoundedDraws env) (power : α)
    (o : Point α) (d : ℕ) :
    (newParticle env power o d).life = 0 ∧ 300 ≤ (newParticle env power o d).ttl :=
  ⟨rfl, (rand_mem_rounded env hr 300 750 (by norm_num) (d + 5)).1⟩

lemma run_frames_quiet (env : Host α) (t0 : α) (nows : List α) :
    ∀ s : Engine α, s.particles = [] → s.nextMicro = t0 + 90 → s.nextBurst = t0 + 900 →
      (∀ now ∈ nows, now < t0 + 90) →
      (run env s (nows.map Op.frame)).particles = [] := by
  induction nows with
  | nil => intro s h _ _ _; exact h
  | cons now nows ih =>
    intro s hp hm hb hall
    have hnow := hall now (List.mem_cons_self _ _)
    have hq := tick_quiet env now s (by rw [hm]; exact hnow) (by rw [hb]; linarith)
    simp only [List.map_cons, run, List.foldl_cons, step]
    apply ih
    · rw [hq, hp]; rfl
    · rw [hq]; exact hm
    · rw [hq]; exact hb
    · exact fun n hn => hall n (List.mem_cons_of_mem _ hn)

/-- The count of the micro cadence: between 2 and 5, at most 4 when `rand(2, 5)`
is below 5, and 3 at the midpoint. -/
lemma micro_count (env : Host α) (hr : RoundedDraws env) (k : ℕ) :
    (2 ≤ ⌊rand env 2 5 k⌋ ∧ ⌊rand env 2 5 k⌋ ≤ 5) ∧
      (rand env 2 5 k < 5 → ⌊rand env 2 5 k⌋ ≤ 4) ∧
      (env.random k = 1 / 2 → ⌊rand env 2 5 k⌋ = 3) := by
  obtain ⟨h1, h2⟩ := rand_mem_rounded env hr 2 5 (by norm_num) k
  refine ⟨⟨Int.le_floor.2 (by exact_mod_cast h1), ?_⟩, ?_, ?_⟩
  · have : ⌊rand env 2 5 k⌋ < 5 + 1 := Int.floor_lt.2 (by push_cast; linarith)
    omega
  · intro hlt
    have : ⌊rand env 2 5 k⌋ < 5 := Int.floor_lt.2 (by exact_mod_cast hlt)
    omega
  · intro h
    rw [Int.floor_eq_iff]
    simp only [rand, h]
    constructor <;> norm_num

/-- The count of the burst cadence: between 12 and 22, at most 21 when
`rand(12, 22)` is below 22, and 17 at the midpoint. -/
lemma burst_count (env : Host α) (hr : RoundedDraws env) (k : ℕ) :
    (12 ≤ ⌊rand env 12 22 k⌋ ∧ ⌊rand env 12 22 k⌋ ≤ 22) ∧
      (rand env 12 22 k < 22 → ⌊rand env 12 22 k⌋ ≤ 21) ∧
      (env.random k = 1 / 2 → ⌊rand env 12 22 k⌋ = 17) := by
  obtain ⟨h1, h2⟩ := rand_mem_rounded env hr 12 22 (by norm_num) k
  refine ⟨⟨Int.le_floor.2 (by exact_mod_cast h1), ?_⟩, ?_, ?_⟩
  · have : ⌊rand env 12 22 k⌋ < 22 + 1 := Int.floor_lt.2 (by push_cast; linarith)
    omega
  · intro hlt
    have : ⌊rand env 12 22 k⌋ < 22 := Int.floor_lt.2 (by exact_mod_cast hlt)
    omega
  · intro h
    rw [Int.floor_eq_iff]
    simp only [rand, h]
    constructor <;> norm_num

lemma cold_start_90 (env : Host α) (hr : RoundedDraws env) (c : Canvas α)
    (h : env.random 0 = 1 / 2) :
    (tick env 90 (tick env 16 (init 0 c))).particles.length = 3 := by
  have h16 : tick env 16 (init 0 c) = { init 0 c with last := 16 } := by
    rw [tick_quiet env 16 (init 0 c) (by norm_num [init]) (by norm_num [init])]
    rfl
  have hcount : ((⌊rand env 2 5 0⌋ : ℤ) : α) = ((3 : ℕ) : α) := by
    rw [(micro_count env hr 0).2.2 h]
    norm_num
  obtain ⟨new, hnew, hall⟩ := schedule_append env 90 { tick env 16 (init 0 c) with last := 90 }
  have hkeep : ∀ p ∈ (schedule env 90 { tick env 16 (init 0 c) with last := 90 }).particles,
      p.life + frameDelta 90 (tick env 16 (init 0 c)).last ≤ p.ttl := by
    intro p hp
    rw [hnew, h16] at hp
    simp only [init, List.nil_append] at hp
    obtain ⟨power, d, rfl⟩ := hall p hp
    obtain ⟨h0, h300⟩ := newParticle_fresh_rounded env hr power
      ({ tick env 16 (init 0 c) with last := 90 } : Engine α).origin d
    have := frameDelta_le (90 : α) (tick env 16 (init 0 c)).last
    rw [h0]
    linarith
  rw [tick_particles, filterMap_advance_all _ _ hkeep, List.length_map, h16]
  have hm : microSpark env (90 : α) { init 0 c with last := 90 } =
      { emit env ((3 : ℕ) : α) 0.85 { init 0 c with last := 90, draws := 1 } with
        nextMicro := 90 + rand env 70 140
          (emit env ((3 : ℕ) : α) 0.85 { init 0 c with last := 90, draws := 1 }).draws
        draws := (emit env ((3 : ℕ) : α) 0.85 { init 0 c with last := 90, draws := 1 }).draws
          + 1 } := by
    unfold microSpark
    rw [if_pos (by norm_num [init])]
    simp only [init, hcount, zero_add]
  have hb : ¬ (90 : α) ≥ (microSpark env (90 : α) { init 0 c with last := 90 }).nextBurst := by
    rw [microSpark_nextBurst]
    norm_num [init]
  unfold schedule burst
  rw [if_neg hb, hm]
  have := emit_length_nat env 3 0.85 { init 0 c with last := 90, draws := 1 }
    (by simp [init, MAX_PARTICLES])
  simpa [init, MAX_PARTICLES] using this

end Survival

/-! ### A concrete run -/

lemma demo_unitDraws : UnitDraws demoHost := fun _ => by norm_num [demoHost]

lemma demo_emit :
    emit demoHost 1 1.4 (init 0 demoCanvas) =
      { init 0 demoCanvas with
        particles := [newParticle demoHost 1.4 ⟨0, 0⟩ 0], draws := 8, emitLog := [(1, 1.4)] } := by
  rw [emit, emitLoop_unfold, if_pos (by norm_num), if_neg (by simp [MAX_PARTICLES, init]),
    emitLoop_unfold, if_neg (by norm_num)]
  simp [spawn, init]

lemma demo_emit_at (t0 : ℚ) :
    emit demoHost 1 1.4 (init t0 demoCanvas) =
      { init t0 demoCanvas with
        particles := [newParticle demoHost 1.4 ⟨0, 0⟩ 0], draws := 8, emitLog := [(1, 1.4)] } := by
  rw [emit, emitLoop_unfold, if_pos (by norm_num), if_neg (by simp [MAX_PARTICLES, init]),
    emitLoop_unfold, if_neg (by norm_num)]
  simp [spawn, init]

lemma demo_roundedDraws : RoundedDraws demoHost := fun _ => by norm_num [demoHost]

lemma edge_roundedDraws : RoundedDraws edgeHost := fun k => by
  by_cases h : k = 0 ∨ k = 42 <;> norm_num [edgeHost, h]

lemma demo_ttl : (newParticle demoHost 1.4 ⟨0, 0⟩ 0).ttl = 525 := by
  norm_num [newParticle, rand, demoHost]

lemma demo_life : (newParticle demoHost 1.4 ⟨0, 0⟩ 0).life = 0 := rfl

end Lemmas

/-! ## The claims -/

section Claims

variable {α : Type} [LinearOrderedField α]

/-- C1. Pool bound: from any state with an empty pool, after every finite
sequence of frames (any timestamps), pointer strikes `emit(24, 1.4)`, calls of
`emit` (any count, any power) and resizes, the pool holds at most 200
particles. -/
theorem pool_bound [FloorRing α] (env : Host α) (s0 : Engine α) (ops : List (Op α))
    (h0 : s0.particles = []) :
    (run env s0 ops).particles.length ≤ 200 :=
  run_length_le env ops s0 (by simp [h0])

/-- Witness of C1: a strike, a frame, a call of `emit` and a resize from the
initial state. -/
theorem pool_bound_witness :
    (init (0 : ℚ) demoCanvas).particles = [] ∧
      (run demoHost (init 0 demoCanvas)
        [.pointerdown, .frame 16, .emit 500 1, .resize ⟨440, 600⟩]).particles.length ≤ 200 :=
  ⟨rfl, pool_bound demoHost _ _ rfl⟩

/-- C2. On a pool of `n ≤ 200` particles, `emit(count, power)` with a natural
number `count` leaves exactly `min (n + count) 200` particles (the model of
`emit` is a total function: nothing is raised); on a full pool `emit(50, 1)`
leaves the pool as it is. -/
theorem emit_size (env : Host α) (count : ℕ) (power : α) (s : Engine α)
    (h : s.particles.length ≤ 200) :
    (emit env (count : α) power s).particles.length = min (s.particles.length + count) 200 ∧
      (s.particles.length = 200 → (emit env 50 1 s).particles = s.particles) := by
  constructor
  · have := emitLoop_length_nat env power count 0
      { s with emitLog := s.emitLog ++ [((count : α), power)] } h
    simpa [emit, MAX_PARTICLES] using this
  · intro hfull
    unfold emit
    rw [emitLoop_unfold, if_pos (by norm_num), if_pos (by simp [MAX_PARTICLES, hfull])]

/-- Witness of C2: three particles requested on the empty pool. -/
theorem emit_size_witness :
    (init (0 : ℚ) demoCanvas).particles.length ≤ 200 ∧
      (emit demoHost ((3 : ℕ) : ℚ) 1 (init 0 demoCanvas)).particles.length = min (0 + 3) 200 :=
  ⟨by decide, (emit_size demoHost 3 1 (init 0 demoCanvas) (by decide)).1⟩

/-- C3. Particle invariant: on a run from an empty pool made of strikes, calls
of `emit`, resizes and frames whose timestamps are non-decreasing (the first one
not earlier than the initial `last`), with `Math.random()` in `[0, 1)`, every
particle in the pool after each operation has `0 ≤ life ≤ ttl` and
`0 ≤ alpha ≤ 1`. -/
theorem particle_invariant [FloorRing α] (env : Host α) (hr : UnitDraws env)
    (s0 : Engine α) (ops : List (Op α)) (h0 : s0.particles = [])
    (hm : MonotoneFrames s0.last ops) (n : ℕ) :
    ∀ p ∈ (run env s0 (ops.take n)).particles,
      0 ≤ p.life ∧ p.life ≤ p.ttl ∧ 0 ≤ p.alpha ∧ p.alpha ≤ 1 := by
  intro p hp
  have h := run_healthy env hr (ops.take n) s0 (monotoneFrames_take ops _ n hm)
    (by simp [h0]) p hp
  exact ⟨h.1, h.2.1, h.2.2.1, h.2.2.2.1⟩

/-- Witness of C3: a strike followed by two frames. -/
theorem particle_invariant_witness :
    UnitDraws demoHost ∧ (init (0 : ℚ) demoCanvas).particles = [] ∧
      MonotoneFrames (init (0 : ℚ) demoCanvas).last [.pointerdown, .frame 16, .frame 40] ∧
      ∀ p ∈ (run demoHost (init 0 demoCanvas)
          (List.take 3 [.pointerdown, .frame 16, .frame 40])).particles,
        0 ≤ p.life ∧ p.life ≤ p.ttl ∧ 0 ≤ p.alpha ∧ p.alpha ≤ 1 :=
  have hr : UnitDraws demoHost := fun _ => by norm_num [demoHost]
  have hm : MonotoneFrames (init (0 : ℚ) demoCanvas).last
      [.pointerdown, .frame 16, .frame 40] := by
    norm_num [MonotoneFrames, init]
  ⟨hr, rfl, hm, particle_invariant demoHost hr _ _ rfl hm 3⟩

/-- C4 fails as stated: with all draws equal to `0` (angle `-0.15 π`, base speed
`1.2`, pop `0.5`) and the power `1.4` of the pointer strike, the particle
emitted has `vy = sin (0.15 π) * 1.68 - 0.5 > 0`: it starts moving downward. -/
theorem upward_counterexample :
    UnitDraws (⟨Real.pi, Real.cos, Real.sin, fun _ => 0, none⟩ : Host ℝ) ∧
      ∃ p ∈ (emit (⟨Real.pi, Real.cos, Real.sin, fun _ => 0, none⟩ : Host ℝ) 1 1.4
        (init 0 demoCanvas)).particles, 0 < p.vy := by
  constructor
  · intro k
    norm_num
  · have hsin : 2 / Real.pi * (Real.pi * 0.15) ≤ Real.sin (Real.pi * 0.15) :=
      Real.mul_le_sin (by positivity) (by nlinarith [Real.pi_pos])
    have h3 : 2 / Real.pi * (Real.pi * 0.15) = 0.3 := by
      field_simp
      ring
    rw [h3] at hsin
    refine ⟨newParticle ⟨Real.pi, Real.cos, Real.sin, fun _ => 0, none⟩ 1.4 ⟨0, 0⟩ 0, ?_, ?_⟩
    · rw [emit, emitLoop_unfold, if_pos (by norm_num), if_neg (by simp [MAX_PARTICLES, init]),
        emitLoop_unfold, if_neg (by norm_num)]
      simp [spawn, init]
    · simp only [newParticle, rand]
      norm_num at hsin ⊢
      linarith

/-- C4, amended. With the real sine, draws in `[0, 1)` and a power `≥ 0`, a
particle built by `emit` whose sampled angle is `≥ 0` has `vy < 0`. -/
theorem upward_when_angle_nonneg (env : Host ℝ) (htrig : RealTrig env) (hr : UnitDraws env)
    (power : ℝ) (hp : 0 ≤ power) (o : Point ℝ) (d : ℕ)
    (hangle : 0 ≤ rand env (-env.PI * 0.15) (env.PI * 0.35) d) :
    (newParticle env power o d).vy < 0 := by
  obtain ⟨hpi, _, hsin⟩ := htrig
  have hpos : 0 < env.PI := hpi ▸ Real.pi_pos
  have ha := (rand_mem env hr (-env.PI * 0.15) (env.PI * 0.35) (by nlinarith) d).2
  have hs := (rand_mem env hr 1.2 3.6 (by norm_num) (d + 1)).1
  have hpop := (rand_mem env hr 0.5 1.2 (by norm_num) (d + 4)).1
  have hsin0 : 0 ≤ env.sin (rand env (-env.PI * 0.15) (env.PI * 0.35) d) := by
    rw [hsin]
    exact Real.sin_nonneg_of_nonneg_of_le_pi hangle (by rw [← hpi]; nlinarith)
  have hsp : 0 ≤ rand env 1.2 3.6 (d + 1) * power := mul_nonneg (by linarith) hp
  simp only [newParticle]
  nlinarith [mul_nonneg hsin0 hsp]

/-- Witness of the amended C4: all draws equal to `1/2` (angle `0.1 π`), power
`1.4`. -/
theorem upward_when_angle_nonneg_witness :
    (newParticle (⟨Real.pi, Real.cos, Real.sin, fun _ => 1 / 2, none⟩ : Host ℝ) 1.4
      ⟨0, 0⟩ 0).vy < 0 :=
  upward_when_angle_nonneg ⟨Real.pi, Real.cos, Real.sin, fun _ => 1 / 2, none⟩
    ⟨rfl, rfl, rfl⟩ (fun _ => by norm_num) 1.4 (by norm_num) ⟨0, 0⟩ 0
    (by simp only [rand]; nlinarith [Real.pi_pos])

/-- C5. Retirement by reverse in-place removal: the integration loop of `tick`
returns the particles with `life + dt ≤ ttl`, in their original order, each
advanced by one integration step (so each particle is visited exactly once);
this is the pool after `tick`; and no particle left has `life > ttl`. -/
theorem retirement_refinement [FloorRing α] (env : Host α) (now dt : α) (s : Engine α)
    (ps : List (Particle α)) :
    tickLoop dt ps.length ps = specRetire dt ps ∧
      (tick env now s).particles =
        specRetire (frameDelta now s.last) (schedule env now { s with last := now }).particles ∧
      ∀ q ∈ tickLoop dt ps.length ps, ¬ q.life > q.ttl := by
  refine ⟨?_, ?_, ?_⟩
  · rw [tickLoop_eq_filterMap, filterMap_advance]
  · rw [tick_particles, filterMap_advance]
  · intro q hq
    rw [tickLoop_eq_filterMap, filterMap_advance] at hq
    simp only [specRetire, List.mem_map, List.mem_filter, decide_eq_true_eq] at hq
    obtain ⟨p, ⟨_, hp⟩, rfl⟩ := hq
    simpa [specStep] using hp

/-- C6 fails as stated: after `emit(1, 1.4)` and a frame at time 40 the particle
has `life = 40` and `last = 40`; a frame at time 30 then runs with
`dt = min(50, 30 - 40) = -10`, not `0`, and takes the particle's `life` to 30. -/
theorem backward_frame_counterexample :
    (run demoHost (init 0 demoCanvas) [.emit 1 1.4, .frame 40]).last = 40 ∧
    (run demoHost (init 0 demoCanvas) [.emit 1 1.4, .frame 40]).particles.map (fun p => p.life)
      = [40] ∧
    frameDelta (30 : ℚ) 40 = -10 ∧
    (run demoHost (init 0 demoCanvas) [.emit 1 1.4, .frame 40, .frame 30]).particles.map
      (fun p => p.life) = [30] := by
  have e1 := demo_emit
  have httl := demo_ttl
  have hlife := demo_life
  have e2 : tick demoHost 40 (emit demoHost 1 1.4 (init 0 demoCanvas)) =
      { init 0 demoCanvas with
        particles := [specStep 40 (newParticle demoHost 1.4 ⟨0, 0⟩ 0)], draws := 8,
        emitLog := [(1, 1.4)], last := 40 } := by
    rw [e1, tick_quiet _ _ _ (by norm_num [init]) (by norm_num [init])]
    have hd : frameDelta (40 : ℚ) 0 = 40 := by norm_num [frameDelta]
    simp only [init, hd, List.filterMap_cons, advance_eq_specStep, httl, hlife,
      List.filterMap_nil]
    norm_num
  have e3 : tick demoHost 30 (tick demoHost 40 (emit demoHost 1 1.4 (init 0 demoCanvas))) =
      { init 0 demoCanvas with
        particles := [specStep (-10) (specStep 40 (newParticle demoHost 1.4 ⟨0, 0⟩ 0))],
        draws := 8, emitLog := [(1, 1.4)], last := 30 } := by
    rw [e2, tick_quiet _ _ _ (by norm_num [init]) (by norm_num [init])]
    have hd : frameDelta (30 : ℚ) 40 = -10 := by norm_num [frameDelta]
    simp only [init, hd, List.filterMap_cons, advance_eq_specStep, specStep, httl, hlife,
      List.filterMap_nil]
    norm_num
  refine ⟨?_, ?_, ?_, ?_⟩
  · simp only [run, List.foldl, step, tick_last]
  · simp only [run, List.foldl, step, e2, List.map, specStep, hlife]
    norm_num
  · norm_num [frameDelta]
  · simp only [run, List.foldl, step, e3, List.map, specStep, hlife]
    norm_num

/-- C6, amended. The frame delta is clamped from above only: it is at most 50 on
every frame, and on a frame with `now < last` it is `now - last < 0`; the frame
then runs the integration step with this negative delta on every particle, and
each particle that stays has its `life` lowered by `last - now`. -/
theorem backward_frame [FloorRing α] (env : Host α) (now : α) (s : Engine α)
    (h : now < s.last) :
    frameDelta now s.last ≤ 50 ∧
      frameDelta now s.last = now - s.last ∧ frameDelta now s.last < 0 ∧
      (tick env now s).particles =
        specRetire (now - s.last) (schedule env now { s with last := now }).particles ∧
      ∀ p q, advance (frameDelta now s.last) p = some q →
        q.life = p.life + (now - s.last) ∧ q.life < p.life := by
  have hdt : frameDelta now s.last = now - s.last := by
    unfold frameDelta
    exact min_eq_right (by linarith)
  refine ⟨min_le_left _ _, hdt, by rw [hdt]; linarith, ?_, ?_⟩
  · rw [tick_particles, filterMap_advance, hdt]
  · intro p q hq
    rw [hdt, advance_eq_specStep] at hq
    split at hq
    · cases hq
      simp only [specStep]
      exact ⟨trivial, by linarith⟩
    · cases hq

/-- Witness of the amended C6: a frame at time 30 when `last = 40`. -/
theorem backward_frame_witness :
    (30 : ℚ) < ({ init 0 demoCanvas with last := 40 } : Engine ℚ).last ∧
      frameDelta (30 : ℚ) ({ init 0 demoCanvas with last := 40 } : Engine ℚ).last < 0 :=
  ⟨by norm_num, (backward_frame demoHost 30 { init 0 demoCanvas with last := 40 }
    (by norm_num)).2.2.1⟩

/-- C7 fails as stated: with `dt = 0` the integration step takes `vx = 1` to
`0.996` (the drag of line 106 does not depend on `dt`). -/
theorem drag_counterexample :
    ∃ q, advance (0 : ℚ) demoParticle = some q ∧ q.vx ≠ demoParticle.vx ∧ q.vx = 0.996 := by
  refine ⟨specStep 0 demoParticle, ?_, ?_, ?_⟩
  · rw [advance_eq_specStep, if_pos (by norm_num [demoParticle])]
  · norm_num [specStep, demoParticle]
  · norm_num [specStep, demoParticle]

/-- C7, amended. One integration step, for any `dt`, leaves `ttl`, `size` and
`hue` unchanged and multiplies `vx` by `0.996`; for `dt = 0` it also leaves `x`,
`y` and `life` unchanged and multiplies `vy` by `0.996`. -/
theorem integrate_fields (dt : α) (p q : Particle α) (h : advance dt p = some q) :
    q.ttl = p.ttl ∧ q.size = p.size ∧ q.hue = p.hue ∧ q.vx = p.vx * 0.996 ∧
      (dt = 0 → q.x = p.x ∧ q.y = p.y ∧ q.life = p.life ∧ q.vy = p.vy * 0.996) := by
  rw [advance_eq_specStep] at h
  split at h
  · cases h
    refine ⟨rfl, rfl, rfl, by simp only [specStep]; ring, ?_⟩
    rintro rfl
    simp only [specStep]
    refine ⟨by ring, by ring, by ring, by ring⟩
  · cases h

/-- Witness of the amended C7: `demoParticle` with `dt = 0`. -/
theorem integrate_fields_witness :
    advance (0 : ℚ) demoParticle = some (specStep 0 demoParticle) ∧
      (specStep (0 : ℚ) demoParticle).vx = demoParticle.vx * 0.996 :=
  have h : advance (0 : ℚ) demoParticle = some (specStep 0 demoParticle) := by
    rw [advance_eq_specStep, if_pos (by norm_num [demoParticle])]
  ⟨h, (integrate_fields 0 demoParticle _ h).2.2.2.1⟩

/-- C8. Scheduler step. On every frame the micro cadence calls `emit` once (with
power 0.85) if `now ≥ nextMicro` and not at all otherwise, and the burst cadence
once (with power 1.3) if `now ≥ nextBurst` and not at all otherwise: the log of
`emit` calls grows by exactly these entries.  A cadence that fires gets the
deadline `now + U`, `U` in `[70, 140]` (micro) or `[800, 1400]` (burst); one
that does not fire keeps its deadline.  In a state with `last = 100` reached
from the initial state by a run with non-decreasing frame timestamps, the frame
at 5000 has delta 50, makes exactly the two calls, and sets the deadlines inside
`[5070, 5140]` and `[5800, 6400]`. -/
theorem scheduler_step [FloorRing α] (env : Host α) (hr : UnitDraws env) (now : α)
    (s : Engine α) :
    (∃ d, (tick env now s).emitLog = s.emitLog ++
      (if now ≥ s.nextMicro then [(((⌊rand env 2 5 s.draws⌋ : ℤ) : α), 0.85)] else []) ++
      (if now ≥ s.nextBurst then [(((⌊rand env 12 22 d⌋ : ℤ) : α), 1.3)] else [])) ∧
    (now ≥ s.nextMicro →
      now + 70 ≤ (tick env now s).nextMicro ∧ (tick env now s).nextMicro ≤ now + 140) ∧
    (¬ now ≥ s.nextMicro → (tick env now s).nextMicro = s.nextMicro) ∧
    (now ≥ s.nextBurst →
      now + 800 ≤ (tick env now s).nextBurst ∧ (tick env now s).nextBurst ≤ now + 1400) ∧
    (¬ now ≥ s.nextBurst → (tick env now s).nextBurst = s.nextBurst) ∧
    (∀ (t0 : α) (c : Canvas α) (ops : List (Op α)), MonotoneFrames t0 ops →
      s = run env (init t0 c) ops → s.last = 100 → now = 5000 →
      frameDelta now s.last = 50 ∧
      (∃ c1 c2, (tick env now s).emitLog = s.emitLog ++ [(c1, 0.85), (c2, 1.3)]) ∧
      5070 ≤ (tick env now s).nextMicro ∧ (tick env now s).nextMicro ≤ 5140 ∧
      5800 ≤ (tick env now s).nextBurst ∧ (tick env now s).nextBurst ≤ 6400) := by
  obtain ⟨d0, h0⟩ := tick_emitLog env now s
  obtain ⟨d1, h1⟩ := tick_nextMicro env now s
  obtain ⟨d2, h2⟩ := tick_nextBurst env now s
  have b1 := rand_mem env hr 70 140 (by norm_num) d1
  have b2 := rand_mem env hr 800 1400 (by norm_num) d2
  have m1 : now ≥ s.nextMicro →
      now + 70 ≤ (tick env now s).nextMicro ∧ (tick env now s).nextMicro ≤ now + 140 := by
    intro h
    rw [h1, if_pos h]
    constructor <;> linarith
  have m2 : now ≥ s.nextBurst →
      now + 800 ≤ (tick env now s).nextBurst ∧ (tick env now s).nextBurst ≤ now + 1400 := by
    intro h
    rw [h2, if_pos h]
    constructor <;> linarith
  refine ⟨⟨d0, h0⟩, m1, ?_, m2, ?_, ?_⟩
  · intro h
    rw [h1, if_neg h]
  · intro h
    rw [h2, if_neg h]
  · intro t0 c ops hm hs hlast hnow
    have hd := run_deadlines env hr ops (init t0 c) hm (by simp only [init]; constructor <;> linarith)
    rw [← hs, hlast] at hd
    subst hnow
    have f1 : (5000 : α) ≥ s.nextMicro := by linarith
    have f2 : (5000 : α) ≥ s.nextBurst := by linarith
    have k1 := m1 f1
    have k2 := m2 f2
    refine ⟨?_, ⟨((⌊rand env 2 5 s.draws⌋ : ℤ) : α), ((⌊rand env 12 22 d0⌋ : ℤ) : α), ?_⟩,
      by linarith, by linarith, by linarith, by linarith⟩
    · rw [hlast, frameDelta]
      norm_num
    · rw [h0, if_pos f1, if_pos f2, List.append_assoc]
      rfl

/-- Witness of C8: the frame at 5000 after a frame at 100. -/
theorem scheduler_step_witness :
    UnitDraws demoHost ∧
      frameDelta (5000 : ℚ) (run demoHost (init 0 demoCanvas) [.frame 100]).last = 50 :=
  ⟨demo_unitDraws,
    ((scheduler_step demoHost demo_unitDraws 5000
      (run demoHost (init 0 demoCanvas) [.frame 100])).2.2.2.2.2 0 demoCanvas [.frame 100]
      (by norm_num [MonotoneFrames]) rfl (by simp only [run, List.foldl, step, tick_last])
      rfl).1⟩

/-- C9 fails as stated: start at `last = 1000`, call `emit(1, 1.4)`, and let a
frame arrive at 940: its delta is `-60` and the particle gets `life = -60`.  The
next two frames, at 950 and 960, have non-decreasing timestamps and the particle
survives both, with `life = -50` and then `-40`: its alpha after the second frame
is greater than after the first. -/
theorem fade_counterexample :
    (run demoHost (init 1000 demoCanvas) [.emit 1 1.4, .frame 940]).last = 940 ∧
    (940 : ℚ) ≤ 950 ∧ (950 : ℚ) ≤ 960 ∧
    ∃ p1 p2 : Particle ℚ,
      (run demoHost (init 1000 demoCanvas) [.emit 1 1.4, .frame 940, .frame 950]).particles
        = [p1] ∧
      (run demoHost (init 1000 demoCanvas)
        [.emit 1 1.4, .frame 940, .frame 950, .frame 960]).particles = [p2] ∧
      advance (frameDelta 960 950) p1 = some p2 ∧
      p1.life = -50 ∧ p2.life = -40 ∧ p1.alpha < p2.alpha := by
  have e1 := demo_emit_at 1000
  have httl := demo_ttl
  have hlife := demo_life
  have e2 : tick demoHost 940 (emit demoHost 1 1.4 (init 1000 demoCanvas)) =
      { init 1000 demoCanvas with
        particles := [specStep (-60) (newParticle demoHost 1.4 ⟨0, 0⟩ 0)], draws := 8,
        emitLog := [(1, 1.4)], last := 940 } := by
    rw [e1, tick_quiet _ _ _ (by norm_num [init]) (by norm_num [init])]
    have hd : frameDelta (940 : ℚ) 1000 = -60 := by norm_num [frameDelta]
    simp only [init, hd, List.filterMap_cons, advance_eq_specStep, httl, hlife,
      List.filterMap_nil]
    norm_num
  have e3 : tick demoHost 950 (tick demoHost 940 (emit demoHost 1 1.4 (init 1000 demoCanvas))) =
      { init 1000 demoCanvas with
        particles := [specStep 10 (specStep (-60) (newParticle demoHost 1.4 ⟨0, 0⟩ 0))],
        draws := 8, emitLog := [(1, 1.4)], last := 950 } := by
    rw [e2, tick_quiet _ _ _ (by norm_num [init]) (by norm_num [init])]
    have hd : frameDelta (950 : ℚ) 940 = 10 := by norm_num [frameDelta]
    simp only [init, hd, List.filterMap_cons, advance_eq_specStep, specStep, httl, hlife,
      List.filterMap_nil]
    norm_num
  have e4 : tick demoHost 960 (tick demoHost 950 (tick demoHost 940
      (emit demoHost 1 1.4 (init 1000 demoCanvas)))) =
      { init 1000 demoCanvas with
        particles :=
          [specStep 10 (specStep 10 (specStep (-60) (newParticle demoHost 1.4 ⟨0, 0⟩ 0)))],
        draws := 8, emitLog := [(1, 1.4)], last := 960 } := by
    rw [e3, tick_quiet _ _ _ (by norm_num [init]) (by norm_num [init])]
    have hd : frameDelta (960 : ℚ) 950 = 10 := by norm_num [frameDelta]
    simp only [init, hd, List.filterMap_cons, advance_eq_specStep, specStep, httl, hlife,
      List.filterMap_nil]
    norm_num
  have hd : frameDelta (960 : ℚ) 950 = 10 := by norm_num [frameDelta]
  refine ⟨?_, by norm_num, by norm_num,
    specStep 10 (specStep (-60) (newParticle demoHost 1.4 ⟨0, 0⟩ 0)),
    specStep 10 (specStep 10 (specStep (-60) (newParticle demoHost 1.4 ⟨0, 0⟩ 0))),
    ?_, ?_, ?_, ?_, ?_, ?_⟩
  · simp only [run, List.foldl, step, tick_last]
  · simp only [run, List.foldl, step, e3]
  · simp only [run, List.foldl, step, e4]
  · rw [hd, advance_eq_specStep, if_pos (by simp only [specStep, httl, hlife]; norm_num)]
  · simp only [specStep, hlife]; norm_num
  · simp only [specStep, hlife]; norm_num
  · simp only [specStep, hlife, httl]; norm_num

/-- C9, amended. Fade monotonicity on a run from an empty pool all of whose
frames have non-decreasing timestamps (the first one not earlier than the initial
`last`): take a particle `p` of the pool that the integration loop of a further
frame at `now1` runs on, and the next frame at `now2 ≥ now1`.  If `p` survives
both (as `p1` after the first frame, `p2` after the second), then `p1` and `p2`
are in the pool after these frames, `p2.alpha ≤ p1.alpha` and `p1.alpha ≤ 1`. -/
theorem fade_monotone [FloorRing α] (env : Host α) (hr : UnitDraws env) (s0 : Engine α)
    (ops : List (Op α)) (h0 : s0.particles = []) (hm : MonotoneFrames s0.last ops)
    (now1 now2 : α) (h1 : (run env s0 ops).last ≤ now1) (h2 : now1 ≤ now2)
    (p p1 p2 : Particle α)
    (hp : p ∈ (schedule env now1 { run env s0 ops with last := now1 }).particles)
    (hp1 : advance (frameDelta now1 (run env s0 ops).last) p = some p1)
    (hp2 : advance (frameDelta now2 now1) p1 = some p2) :
    p1 ∈ (tick env now1 (run env s0 ops)).particles ∧
      p2 ∈ (tick env now2 (tick env now1 (run env s0 ops))).particles ∧
      p2.alpha ≤ p1.alpha ∧ p1.alpha ≤ 1 := by
  have hH : ∀ q ∈ (run env s0 ops).particles, Healthy q :=
    run_healthy env hr ops s0 hm (by simp [h0])
  have hpH : Healthy p := schedule_healthy env hr now1 { run env s0 ops with last := now1 } hH p hp
  have hmem1 : p1 ∈ (tick env now1 (run env s0 ops)).particles := by
    rw [tick_particles, List.mem_filterMap]
    exact ⟨p, hp, hp1⟩
  have hmem2 : p2 ∈ (tick env now2 (tick env now1 (run env s0 ops))).particles := by
    rw [tick_particles, List.mem_filterMap]
    refine ⟨p1, schedule_subset env now2 _ hmem1, ?_⟩
    rw [tick_last]
    exact hp2
  have hd1 := frameDelta_nonneg now1 _ h1
  have hd2 := frameDelta_nonneg now2 now1 h2
  obtain ⟨hl0, _, _, _, httl⟩ := hpH
  rw [advance_eq_specStep] at hp1 hp2
  split at hp1
  · cases hp1
    split at hp2
    · next hle2 =>
      cases hp2
      refine ⟨hmem1, hmem2, ?_, ?_⟩
      · simp only [specStep] at hle2 ⊢
        have ha : 0 ≤ (p.life + frameDelta now1 (run env s0 ops).last) / p.ttl :=
          div_nonneg (by linarith) httl.le
        have hb : (p.life + frameDelta now1 (run env s0 ops).last) / p.ttl ≤
            (p.life + frameDelta now1 (run env s0 ops).last + frameDelta now2 now1) / p.ttl :=
          div_le_div_of_nonneg_right (by linarith) httl.le
        nlinarith
      · simp only [specStep]
        nlinarith [sq_nonneg ((p.life + frameDelta now1 (run env s0 ops).last) / p.ttl)]
    · cases hp2
  · cases hp1

/-- Witness of the amended C9: the particle emitted by `emit(1, 1.4)` through frames at 40
and 60. -/
theorem fade_monotone_witness :
    (specStep 20 (specStep 40 (newParticle demoHost 1.4 ⟨0, 0⟩ 0))).alpha ≤
      (specStep 40 (newParticle demoHost 1.4 ⟨0, 0⟩ 0)).alpha ∧
      (specStep 40 (newParticle demoHost 1.4 ⟨0, 0⟩ 0)).alpha ≤ 1 :=
  have hrun : run demoHost (init 0 demoCanvas) [.emit 1 1.4] =
      { init 0 demoCanvas with
        particles := [newParticle demoHost 1.4 ⟨0, 0⟩ 0], draws := 8,
        emitLog := [(1, 1.4)] } := demo_emit
  have hlast : (run demoHost (init 0 demoCanvas) [.emit 1 1.4]).last = 0 := by
    rw [hrun]
    rfl
  (fade_monotone demoHost demo_unitDraws (init 0 demoCanvas) [.emit 1 1.4] rfl
    (by simp [MonotoneFrames]) 40 60 (by rw [hlast]; norm_num) (by norm_num)
    (newParticle demoHost 1.4 ⟨0, 0⟩ 0) (specStep 40 (newParticle demoHost 1.4 ⟨0, 0⟩ 0))
    (specStep 20 (specStep 40 (newParticle demoHost 1.4 ⟨0, 0⟩ 0)))
    (schedule_subset demoHost 40 _ (by rw [hrun]; simp))
    (by
      have hd : frameDelta (40 : ℚ) 0 = 40 := by norm_num [frameDelta]
      rw [hlast, hd, advance_eq_specStep, if_pos (by rw [demo_ttl, demo_life]; norm_num)])
    (by
      have hd : frameDelta (60 : ℚ) 40 = 20 := by norm_num [frameDelta]
      rw [hd, advance_eq_specStep,
        if_pos (by simp only [specStep, demo_ttl, demo_life]; norm_num)])).2.2

/-- C10 fails as stated: for the rectangle of width 100.5 with `DPR = 2` the
backing-store width is `floor(100 * 2) = 200`, not `floor(100.5 * 2) = 201`, and
`origin.x` is `146/220 * 100`, not `146/220 * 100.5`: `fitCanvas` floors the
width before using it. -/
theorem fitCanvas_counterexample :
    DPR demoHost = 2 ∧
    (fitCanvas demoHost ⟨201 / 2, 50⟩ (init 0 demoCanvas)).canvas.width = 200 ∧
      (⌊(201 / 2 : ℚ) * DPR demoHost⌋ : ℤ) = 201 ∧
      (fitCanvas demoHost ⟨201 / 2, 50⟩ (init 0 demoCanvas)).origin.x = 146 / 220 * 100 ∧
      (146 / 220 * 100 : ℚ) ≠ 146 / 220 * (201 / 2) := by
  have hD : DPR demoHost = 2 := by norm_num [DPR, demoHost]
  have hf : ⌊(201 / 2 : ℚ)⌋ = 100 := by
    rw [Int.floor_eq_iff]; norm_num
  refine ⟨hD, ?_, ?_, ?_, by norm_num⟩
  · simp only [fitCanvas, hD, hf]
    norm_num
  · rw [hD, Int.floor_eq_iff]; norm_num
  · simp only [fitCanvas, hf, ORIGIN_SVG]
    norm_num

/-- C10, amended. `DPR ≥ 1`; `fitCanvas` sets `width = max(1, floor(w))` and
`height = max(1, floor(h))` for the scene rectangle `w × h`, the backing store to
`(floor(width * DPR), floor(height * DPR))` and the origin to
`(146/220 * width, 102/300 * height)`.  When `w` and `h` are integers `≥ 1` these
are `(floor(w * DPR), floor(h * DPR))` and `(146/220 * w, 102/300 * h)`; for the
440 × 600 scene with device pixel ratio 2 the backing store is 880 × 1200 and the
origin is within `10⁻⁹` of `(292, 204)` (the products of lines 29-30 are rounded
in double arithmetic, so the origin need not be `(292, 204)` exactly). -/
theorem fitCanvas_metrics [FloorRing α] (env : Host α) (rect : Rect α) (s : Engine α) :
    1 ≤ DPR env ∧
    (fitCanvas env rect s).width = max 1 ((⌊rect.width⌋ : ℤ) : α) ∧
    (fitCanvas env rect s).height = max 1 ((⌊rect.height⌋ : ℤ) : α) ∧
    (fitCanvas env rect s).canvas.width =
      ((⌊(fitCanvas env rect s).width * DPR env⌋ : ℤ) : α) ∧
    (fitCanvas env rect s).canvas.height =
      ((⌊(fitCanvas env rect s).height * DPR env⌋ : ℤ) : α) ∧
    (fitCanvas env rect s).origin =
      ⟨146 / 220 * (fitCanvas env rect s).width, 102 / 300 * (fitCanvas env rect s).height⟩ ∧
    (∀ w h : ℕ, 1 ≤ w → 1 ≤ h → rect = ⟨(w : α), (h : α)⟩ →
      (fitCanvas env rect s).canvas.width = ((⌊(w : α) * DPR env⌋ : ℤ) : α) ∧
      (fitCanvas env rect s).canvas.height = ((⌊(h : α) * DPR env⌋ : ℤ) : α) ∧
      (fitCanvas env rect s).origin = ⟨146 / 220 * (w : α), 102 / 300 * (h : α)⟩) ∧
    (env.devicePixelRatio = some 2 → rect = ⟨440, 600⟩ →
      |(fitCanvas env rect s).origin.x - 292| ≤ 1 / 1000000000 ∧
      |(fitCanvas env rect s).origin.y - 204| ≤ 1 / 1000000000 ∧
      (fitCanvas env rect s).canvas.width = 880 ∧
      (fitCanvas env rect s).canvas.height = 1200) := by
  have hnat : ∀ w : ℕ, 1 ≤ w → max 1 ((⌊(w : α)⌋ : ℤ) : α) = (w : α) := by
    intro w hw
    rw [Int.floor_natCast, Int.cast_natCast]
    exact max_eq_right (by exact_mod_cast hw)
  refine ⟨one_le_DPR env, rfl, rfl, rfl, rfl, rfl, ?_, ?_⟩
  · rintro w h hw hh rfl
    refine ⟨?_, ?_, ?_⟩ <;> simp only [fitCanvas, hnat w hw, hnat h hh, ORIGIN_SVG]
  · rintro hd rfl
    have hD : DPR env = 2 := by
      simp only [DPR, hd]
      norm_num
    have h440 := hnat 440 (by norm_num)
    have h600 := hnat 600 (by norm_num)
    simp only [Nat.cast_ofNat] at h440 h600
    have f1 : ⌊(440 : α) * 2⌋ = 880 := by
      rw [Int.floor_eq_iff]; norm_num
    have f2 : ⌊(600 : α) * 2⌋ = 1200 := by
      rw [Int.floor_eq_iff]; norm_num
    have hx : (fitCanvas env ⟨440, 600⟩ s).origin.x = 292 := by
      simp only [fitCanvas, h440, ORIGIN_SVG]
      norm_num
    have hy : (fitCanvas env ⟨440, 600⟩ s).origin.y = 204 := by
      simp only [fitCanvas, h600, ORIGIN_SVG]
      norm_num
    refine ⟨by rw [hx]; norm_num, by rw [hy]; norm_num, ?_, ?_⟩
    · simp only [fitCanvas, h440, hD, f1]
      norm_num
    · simp only [fitCanvas, h600, hD, f2]
      norm_num

/-- Witness of C10, amended: the 440 × 600 scene on the demo host, whose device
pixel ratio is 2. -/
theorem fitCanvas_metrics_witness :
    |(fitCanvas demoHost ⟨440, 600⟩ (init 0 demoCanvas)).origin.x - 292| ≤ 1 / 1000000000 ∧
      |(fitCanvas demoHost ⟨440, 600⟩ (init 0 demoCanvas)).origin.y - 204| ≤ 1 / 1000000000 ∧
      (fitCanvas demoHost ⟨440, 600⟩ (init 0 demoCanvas)).canvas.width = 880 ∧
      (fitCanvas demoHost ⟨440, 600⟩ (init 0 demoCanvas)).canvas.height = 1200 :=
  (fitCanvas_metrics demoHost ⟨440, 600⟩ (init 0 demoCanvas)).2.2.2.2.2.2.2 rfl rfl

/-- C11. For every scene rectangle, also of zero or negative width or height,
`fitCanvas` yields a logical width and height of at least 1 and a canvas backing
store of at least 1 × 1 (`DPR ≥ 1` always holds); a rectangle with width `≤ 0`
and height `≤ 0` yields the logical size 1 × 1 and the origin
`(146/220, 102/300)`. -/
theorem fitCanvas_min_size [FloorRing α] (env : Host α) (rect : Rect α) (s : Engine α) :
    1 ≤ (fitCanvas env rect s).width ∧ 1 ≤ (fitCanvas env rect s).height ∧
    1 ≤ (fitCanvas env rect s).canvas.width ∧ 1 ≤ (fitCanvas env rect s).canvas.height ∧
    (rect.width ≤ 0 → rect.height ≤ 0 →
      (fitCanvas env rect s).width = 1 ∧ (fitCanvas env rect s).height = 1 ∧
      (fitCanvas env rect s).origin = ⟨146 / 220, 102 / 300⟩) := by
  have hD := one_le_DPR env
  have hcanvas : ∀ w : α, 1 ≤ w → (1 : α) ≤ ((⌊w * DPR env⌋ : ℤ) : α) := by
    intro w hw
    have h1 : (1 : α) ≤ w * DPR env := by nlinarith
    have h2 : (1 : ℤ) ≤ ⌊w * DPR env⌋ := Int.le_floor.2 (by exact_mod_cast h1)
    exact_mod_cast h2
  have hclamp : ∀ w : α, w ≤ 0 → max 1 ((⌊w⌋ : ℤ) : α) = 1 := by
    intro w hw
    apply max_eq_left
    have h0 : ⌊w⌋ ≤ 0 := Int.floor_nonpos hw
    have h1 : ((⌊w⌋ : ℤ) : α) ≤ 0 := by exact_mod_cast h0
    linarith
  refine ⟨le_max_left _ _, le_max_left _ _, hcanvas _ (le_max_left _ _),
    hcanvas _ (le_max_left _ _), ?_⟩
  intro hw hh
  simp only [fitCanvas, hclamp _ hw, hclamp _ hh, ORIGIN_SVG, mul_one]
  exact ⟨trivial, trivial, trivial⟩

/-- Witness of C11: the rectangle of width 0 and height -5. -/
theorem fitCanvas_min_size_witness :
    (fitCanvas demoHost ⟨0, -5⟩ (init 0 demoCanvas)).width = 1 ∧
      (fitCanvas demoHost ⟨0, -5⟩ (init 0 demoCanvas)).height = 1 ∧
      (fitCanvas demoHost ⟨0, -5⟩ (init 0 demoCanvas)).origin = ⟨146 / 220, 102 / 300⟩ :=
  (fitCanvas_min_size demoHost ⟨0, -5⟩ (init 0 demoCanvas)).2.2.2.2 (by norm_num) (by norm_num)

/-- C12. Strike frame condition: every call of `emit`, the pointer strike
`emit(24, 1.4)` included, leaves `nextMicro`, `nextBurst`, `last` and `origin`
unchanged and every particle already in the pool unchanged at the same index;
the new particles come after them, exactly 24 of them for the strike when the
pool holds at most 176 particles. -/
theorem strike_frame [FloorRing α] (env : Host α) (count power : α) (s : Engine α) :
    (emit env count power s).nextMicro = s.nextMicro ∧
    (emit env count power s).nextBurst = s.nextBurst ∧
    (emit env count power s).last = s.last ∧
    (emit env count power s).origin = s.origin ∧
    (∃ new, (emit env count power s).particles = s.particles ++ new) ∧
    (∀ i, i < s.particles.length → (emit env count power s).particles[i]? = s.particles[i]?) ∧
    (s.particles.length ≤ 176 →
      ∃ new, (step env s .pointerdown).particles = s.particles ++ new ∧ new.length = 24) := by
  obtain ⟨new, hnew, _⟩ := emit_append env count power s
  refine ⟨emit_nextMicro _ _ _ _, emit_nextBurst _ _ _ _, emit_last _ _ _ _,
    emit_origin _ _ _ _, ⟨new, hnew⟩, ?_, ?_⟩
  · intro i hi
    rw [hnew, List.getElem?_append_left hi]
  · intro hlen
    obtain ⟨new24, h24, _⟩ := emit_append env 24 1.4 s
    refine ⟨new24, h24, ?_⟩
    have hl := emit_length_nat env 24 1.4 s (by simp only [MAX_PARTICLES]; omega)
    simp only [Nat.cast_ofNat, MAX_PARTICLES] at hl
    rw [h24, List.length_append] at hl
    omega

/-- Witness of C12: the strike on the empty pool. -/
theorem strike_frame_witness :
    ∃ new, (step demoHost (init 0 demoCanvas) .pointerdown).particles =
      (init (0 : ℚ) demoCanvas).particles ++ new ∧ new.length = 24 :=
  (strike_frame demoHost 24 1.4 (init 0 demoCanvas)).2.2.2.2.2.2 (by simp [init])

/-- C13. A frame leaves `ttl`, `size` and `hue` of every particle it keeps as they
were: the pool after `tick` corresponds, in order, to a sublist `kept` of the
pool the integration loop runs on (the pool before the frame followed by the
particles the cadences emit), each particle of the result being the integration
step of its counterpart, with the same `ttl`, `size` and `hue`.  The same holds
over any number of integration steps, so the values are the ones given at
emission. -/
theorem immutable_fields [FloorRing α] (env : Host α) (now : α) (s : Engine α) :
    (∃ new kept, (schedule env now { s with last := now }).particles = s.particles ++ new ∧
      kept.Sublist (s.particles ++ new) ∧
      List.Forall₂ (fun p q => advance (frameDelta now s.last) p = some q ∧
        q.ttl = p.ttl ∧ q.size = p.size ∧ q.hue = p.hue) kept (tick env now s).particles) ∧
    (∀ (dts : List α) (p q : Particle α), advanceMany dts p = some q →
      q.ttl = p.ttl ∧ q.size = p.size ∧ q.hue = p.hue) := by
  refine ⟨?_, advanceMany_fields⟩
  obtain ⟨new, hnew, _⟩ := schedule_append env now { s with last := now }
  refine ⟨new, (s.particles ++ new).filter
    (fun p => decide (p.life + frameDelta now s.last ≤ p.ttl)), hnew, List.filter_sublist _, ?_⟩
  rw [tick_particles, filterMap_advance, specRetire, hnew, List.forall₂_map_right_iff,
    List.forall₂_same]
  intro p hp
  simp only [List.mem_filter, decide_eq_true_eq] at hp
  exact ⟨advance_of_le _ _ hp.2, rfl, rfl, rfl⟩

/-- C14. Resize does not migrate particles: `fitCanvas` leaves the pool and the
timestamps `nextMicro`, `nextBurst` and `last` unchanged; the state after it is
the state before with only `width`, `height`, the canvas metrics and `origin`
replaced. -/
theorem fitCanvas_frame [FloorRing α] (env : Host α) (rect : Rect α) (s : Engine α) :
    (fitCanvas env rect s).particles = s.particles ∧
    (fitCanvas env rect s).nextMicro = s.nextMicro ∧
    (fitCanvas env rect s).nextBurst = s.nextBurst ∧
    (fitCanvas env rect s).last = s.last ∧
    fitCanvas env rect s =
      { s with
        width := (fitCanvas env rect s).width
        height := (fitCanvas env rect s).height
        canvas := (fitCanvas env rect s).canvas
        origin := (fitCanvas env rect s).origin } :=
  ⟨rfl, rfl, rfl, rfl, rfl⟩

/-- C15 fails as stated: line 38 runs in double arithmetic, where `rand(2, 5)` is
`5.0` for the draw `1 - 2^-53` and `rand(12, 22)` is `22.0` for the draw
`1 - 2^-52`.  On the host `edgeHost`, where this happens at the draws of the two
counts, the first frame at 900 after a start at 0 calls `emit(5, 0.85)` and
`emit(22, 1.3)`: the counts are outside 2..4 and 12..21. -/
theorem cold_start_counterexample :
    RoundedDraws edgeHost ∧ rand edgeHost 2 5 0 = 5 ∧ rand edgeHost 12 22 42 = 22 ∧
      (tick edgeHost 900 (init 0 demoCanvas)).emitLog = [(5, 0.85), (22, 1.3)] := by
  have h5 : rand edgeHost 2 5 0 = 5 := by norm_num [rand, edgeHost]
  have h22 : rand edgeHost 12 22 42 = 22 := by norm_num [rand, edgeHost]
  have f5 : ((⌊rand edgeHost 2 5 0⌋ : ℤ) : ℚ) = ((5 : ℕ) : ℚ) := by
    rw [h5]
    norm_num
  have f22 : ((⌊rand edgeHost 12 22 42⌋ : ℤ) : ℚ) = 22 := by
    rw [h22]
    norm_num
  have hdraws : (microSpark edgeHost 900 { init 0 demoCanvas with last := 900 }).draws = 42 := by
    unfold microSpark
    rw [if_pos (by norm_num [init])]
    simp only [init, f5, zero_add]
    have := emit_draws_nat edgeHost 5 0.85
      { init 0 demoCanvas with last := 900, draws := 1 } (by simp [init, MAX_PARTICLES])
    simp only [init, zero_add] at this
    rw [this]
  refine ⟨edge_roundedDraws, h5, h22, ?_⟩
  simp only [tick, schedule, burst_emitLog, microSpark_emitLog, microSpark_nextBurst, hdraws,
    f22]
  simp only [init, f5]
  norm_num

/-- C15, amended.  From an empty pool with `nextMicro = t0 + 90` and
`nextBurst = t0 + 900`, frames with `now < t0 + 90` leave the pool empty.  The
micro cadence, when it fires, calls `emit` with the count `floor(rand(2, 5))` and
the burst cadence with `floor(rand(12, 22))`.  With the values of `rand` in
`[min, max]`, `max` included, the first count is between 2 and 5, at most 4
whenever `rand(2, 5) < 5`, and 3 when the draw is `1/2`; the second is between 12
and 22, at most 21 whenever `rand(12, 22) < 22`, and 17 when the draw is `1/2`.
With `t0 = 0` the frame at 16 leaves the pool empty and the frame at 90 then
leaves exactly 3 particles when the draw of the count is `1/2`. -/
theorem cold_start [FloorRing α] (env : Host α) (hr : RoundedDraws env) :
    (∀ (t0 : α) (s : Engine α) (nows : List α), s.particles = [] →
      s.nextMicro = t0 + 90 → s.nextBurst = t0 + 900 → (∀ now ∈ nows, now < t0 + 90) →
      (run env s (nows.map Op.frame)).particles = []) ∧
    (∀ (now : α) (s : Engine α), ∃ d, (tick env now s).emitLog = s.emitLog ++
      (if now ≥ s.nextMicro then [(((⌊rand env 2 5 s.draws⌋ : ℤ) : α), 0.85)] else []) ++
      (if now ≥ s.nextBurst then [(((⌊rand env 12 22 d⌋ : ℤ) : α), 1.3)] else [])) ∧
    (∀ k : ℕ,
      (2 ≤ ⌊rand env 2 5 k⌋ ∧ ⌊rand env 2 5 k⌋ ≤ 5) ∧
      (rand env 2 5 k < 5 → ⌊rand env 2 5 k⌋ ≤ 4) ∧
      (env.random k = 1 / 2 → ⌊rand env 2 5 k⌋ = 3) ∧
      (12 ≤ ⌊rand env 12 22 k⌋ ∧ ⌊rand env 12 22 k⌋ ≤ 22) ∧
      (rand env 12 22 k < 22 → ⌊rand env 12 22 k⌋ ≤ 21) ∧
      (env.random k = 1 / 2 → ⌊rand env 12 22 k⌋ = 17)) ∧
    (∀ c : Canvas α, (tick env 16 (init 0 c)).particles = [] ∧
      (env.random 0 = 1 / 2 →
        (tick env 90 (tick env 16 (init 0 c))).particles.length = 3)) := by
  refine ⟨fun t0 s nows => run_frames_quiet env t0 nows s, tick_emitLog env, ?_, ?_⟩
  · intro k
    obtain ⟨m1, m2, m3⟩ := micro_count env hr k
    obtain ⟨b1, b2, b3⟩ := burst_count env hr k
    exact ⟨m1, m2, m3, b1, b2, b3⟩
  · intro c
    refine ⟨?_, cold_start_90 env hr c⟩
    rw [tick_quiet env 16 (init 0 c) (by norm_num [init]) (by norm_num [init])]
    rfl

/-- Witness of the amended C15: the demo host, all of whose draws are `1/2`. -/
theorem cold_start_witness :
    RoundedDraws demoHost ∧
      (tick demoHost 90 (tick demoHost 16 (init 0 demoCanvas))).particles.length = 3 :=
  ⟨demo_roundedDraws, ((cold_start demoHost demo_roundedDraws).2.2.2 demoCanvas).2 rfl⟩

/-- C16. With `Math.random()` in `[0, 1)` and `Math.PI ≥ 0`, for every origin
and power, `emit` appends particles with `life = 0`, `alpha = 1`, `ttl` in
`[300, 750]`, `size` in `[0.8, 2.0]`, `hue` in `[30, 55]`, `x` and `y` within 1.5
of the origin, and velocity `vx = cos θ * s`, `vy = -sin θ * s - p` with `θ` in
`[-0.15 π, 0.35 π]`, `s` in `[1.2 power, 3.6 power]` when `power ≥ 0`, and `p` in
`[0.5, 1.2]`. -/
theorem emitted_particle (env : Host α) (hr : UnitDraws env) (hpi : 0 ≤ env.PI)
    (count power : α) (s : Engine α) :
    ∃ new, (emit env count power s).particles = s.particles ++ new ∧
      ∀ p ∈ new, p.life = 0 ∧ p.alpha = 1 ∧ 300 ≤ p.ttl ∧ p.ttl ≤ 750 ∧
        0.8 ≤ p.size ∧ p.size ≤ 2.0 ∧ 30 ≤ p.hue ∧ p.hue ≤ 55 ∧
        |p.x - s.origin.x| ≤ 1.5 ∧ |p.y - s.origin.y| ≤ 1.5 ∧
        ∃ θ sp pop, -0.15 * env.PI ≤ θ ∧ θ ≤ 0.35 * env.PI ∧
          (0 ≤ power → 1.2 * power ≤ sp ∧ sp ≤ 3.6 * power) ∧
          0.5 ≤ pop ∧ pop ≤ 1.2 ∧
          p.vx = env.cos θ * sp ∧ p.vy = -env.sin θ * sp - pop := by
  obtain ⟨new, hnew, hall⟩ := emit_append env count power s
  refine ⟨new, hnew, ?_⟩
  intro p hp
  obtain ⟨d, rfl⟩ := hall p hp
  have hθ := rand_mem env hr (-env.PI * 0.15) (env.PI * 0.35) (by nlinarith) d
  have hs := rand_mem env hr 1.2 3.6 (by norm_num) (d + 1)
  have hx := rand_mem env hr (-1.5) 1.5 (by norm_num) (d + 2)
  have hy := rand_mem env hr (-1.5) 1.5 (by norm_num) (d + 3)
  have hpop := rand_mem env hr 0.5 1.2 (by norm_num) (d + 4)
  have httl := rand_mem env hr 300 750 (by norm_num) (d + 5)
  have hsize := rand_mem env hr 0.8 2.0 (by norm_num) (d + 6)
  have hhue := rand_mem env hr 30 55 (by norm_num) (d + 7)
  refine ⟨rfl, rfl, httl.1, httl.2, hsize.1, hsize.2, hhue.1, hhue.2, ?_, ?_,
    rand env (-env.PI * 0.15) (env.PI * 0.35) d, rand env 1.2 3.6 (d + 1) * power,
    rand env 0.5 1.2 (d + 4), by linarith [hθ.1], by linarith [hθ.2], ?_, hpop.1, hpop.2,
    rfl, rfl⟩
  · simp only [newParticle, add_sub_cancel_left]
    exact abs_le.2 ⟨hx.1, hx.2⟩
  · simp only [newParticle, add_sub_cancel_left]
    exact abs_le.2 ⟨hy.1, hy.2⟩
  · intro hp0
    constructor <;> nlinarith [hs.1, hs.2]

/-- Witness of C16: `emit(2, 1)` on the demo host. -/
theorem emitted_particle_witness :
    UnitDraws demoHost ∧ 0 ≤ demoHost.PI ∧
      ∃ new, (emit demoHost 2 1 (init 0 demoCanvas)).particles =
        (init (0 : ℚ) demoCanvas).particles ++ new ∧ ∀ p ∈ new, p.life = 0 ∧ p.alpha = 1 :=
  have hpi : 0 ≤ demoHost.PI := by norm_num [demoHost]
  ⟨demo_unitDraws, hpi,
    (emitted_particle demoHost demo_unitDraws hpi 2 1 (init 0 demoCanvas)).imp
      fun _ h => ⟨h.1, fun p hp => ⟨(h.2 p hp).1, (h.2 p hp).2.1⟩⟩⟩

/-- C17. `fitCanvas` is idempotent: calling it twice in a row with the same
rectangle gives the same state (origin, width, height, canvas metrics and all
the rest) as calling it once. -/
theorem fitCanvas_idempotent [FloorRing α] (env : Host α) (rect : Rect α) (s : Engine α) :
    fitCanvas env rect (fitCanvas env rect s) = fitCanvas env rect s ∧
    (fitCanvas env rect (fitCanvas env rect s)).origin = (fitCanvas env rect s).origin ∧
    (fitCanvas env rect (fitCanvas env rect s)).width = (fitCanvas env rect s).width ∧
    (fitCanvas env rect (fitCanvas env rect s)).height = (fitCanvas env rect s).height ∧
    (fitCanvas env rect (fitCanvas env rect s)).canvas = (fitCanvas env rect s).canvas := by
  have h : fitCanvas env rect (fitCanvas env rect s) = fitCanvas env rect s := by
    simp only [fitCanvas]
  exact ⟨h, by rw [h], by rw [h], by rw [h], by rw [h]⟩

/-- C18. Integration step formulas: a particle with `life + dt ≤ ttl` is kept by
the step and gets `life' = life + dt`, `vx' = 0.996 vx`,
`vy' = 0.996 (vy + 0.025 k)`, `x' = x + vx' k`, `y' = y + vy' k` with
`k = dt / 16.67`, and `alpha' = 1 - (life' / ttl)^2`; `ttl`, `size`, `hue` are
kept.  The factor 0.996 appears once, whatever `dt` is.  This is the particle's
state in the pool after a frame whose delta is `dt`. -/
theorem integration_step [FloorRing α] (dt : α) (p : Particle α) (h : p.life + dt ≤ p.ttl) :
    ∃ q, advance dt p = some q ∧
      q.life = p.life + dt ∧
      q.vx = 0.996 * p.vx ∧
      q.vy = 0.996 * (p.vy + 0.025 * (dt / 16.67)) ∧
      q.x = p.x + q.vx * (dt / 16.67) ∧
      q.y = p.y + q.vy * (dt / 16.67) ∧
      q.alpha = 1 - (q.life / p.ttl) ^ 2 ∧
      q.ttl = p.ttl ∧ q.size = p.size ∧ q.hue = p.hue ∧
      ∀ (env : Host α) (now : α) (s : Engine α), dt = frameDelta now s.last →
        p ∈ (schedule env now { s with last := now }).particles →
        q ∈ (tick env now s).particles := by
  have hnot : ¬ (age dt p).life > (age dt p).ttl := by simpa [age] using h
  refine ⟨integrate dt (age dt p), ?_, rfl, ?_, ?_, ?_, ?_, ?_, rfl, rfl, rfl, ?_⟩
  · rw [advance, if_neg hnot]
  · simp only [integrate, age]; ring
  · simp only [integrate, age]; ring
  · simp only [integrate, age]
  · simp only [integrate, age]
  · simp only [integrate, age]; ring
  · intro env now s hdt hp
    rw [tick_particles, List.mem_filterMap]
    refine ⟨p, hp, ?_⟩
    rw [← hdt, advance, if_neg hnot]

/-- Witness of C18: `demoParticle` with `dt = 16`. -/
theorem integration_step_witness :
    demoParticle.life + 16 ≤ demoParticle.ttl ∧
      ∃ q, advance (16 : ℚ) demoParticle = some q ∧ q.life = demoParticle.life + 16 ∧
        q.vx = 0.996 * demoParticle.vx :=
  have h : demoParticle.life + 16 ≤ demoParticle.ttl := by norm_num [demoParticle]
  ⟨h, (integration_step 16 demoParticle h).imp fun _ hq => ⟨hq.1, hq.2.1, hq.2.2.1⟩⟩

/-- C19. Minimum survival, with `Math.random()` in `[0, 1)`.  Every particle
appended by `emit` has `life = 0` and `ttl ≥ 300`.  Such a particle of the pool
is still in the pool, advanced by the frame deltas, after any sequence of events
with at most 6 frames, whatever their timestamps.  The particles a cadence emits
inside a frame are all kept by that frame, which ages them by its delta, and
they are still in the pool after any further events with at most 5 frames. -/
theorem minimum_survival [FloorRing α] (env : Host α) (hr : UnitDraws env) :
    (∀ (count power : α) (s : Engine α), ∃ new,
      (emit env count power s).particles = s.particles ++ new ∧
      ∀ p ∈ new, p.life = 0 ∧ 300 ≤ p.ttl) ∧
    (∀ (s : Engine α) (p : Particle α) (ops : List (Op α)), p ∈ s.particles →
      p.life = 0 → 300 ≤ p.ttl → (deltas s.last ops).length ≤ 6 →
      ∃ q ∈ (run env s ops).particles, advanceMany (deltas s.last ops) p = some q) ∧
    (∀ (now : α) (s : Engine α), ∃ new,
      (schedule env now { s with last := now }).particles = s.particles ++ new ∧
      (tick env now s).particles =
        s.particles.filterMap (advance (frameDelta now s.last)) ++
          new.map (specStep (frameDelta now s.last)) ∧
      ∀ p ∈ new, (specStep (frameDelta now s.last) p).life = frameDelta now s.last ∧
        ∀ ops : List (Op α), (deltas now ops).length ≤ 5 →
          ∃ q ∈ (run env (tick env now s) ops).particles,
            advanceMany (frameDelta now s.last :: deltas now ops) p = some q) := by
  refine ⟨?_, ?_, ?_⟩
  · intro count power s
    obtain ⟨new, hnew, hall⟩ := emit_append env count power s
    refine ⟨new, hnew, ?_⟩
    intro p hp
    obtain ⟨d, rfl⟩ := hall p hp
    exact newParticle_fresh env hr _ _ _
  · intro s p ops hp hlife httl hlen
    apply survive_run env ops s p hp
    have h6 : ((deltas s.last ops).length : α) ≤ 6 := by exact_mod_cast hlen
    rw [hlife]
    linarith
  · intro now s
    obtain ⟨new, hnew, hall⟩ := schedule_append env now { s with last := now }
    have hdt := frameDelta_le now s.last
    have hfresh : ∀ p ∈ new, p.life = 0 ∧ 300 ≤ p.ttl := by
      intro p hp
      obtain ⟨power, d, rfl⟩ := hall p hp
      exact newParticle_fresh env hr _ _ _
    have hkeep : ∀ p ∈ new, p.life + frameDelta now s.last ≤ p.ttl := by
      intro p hp
      obtain ⟨h0, h300⟩ := hfresh p hp
      rw [h0]
      linarith
    have htick : (tick env now s).particles =
        s.particles.filterMap (advance (frameDelta now s.last)) ++
          new.map (specStep (frameDelta now s.last)) := by
      rw [tick_particles, hnew, List.filterMap_append, filterMap_advance_all _ new hkeep]
    refine ⟨new, hnew, htick, ?_⟩
    intro p hp
    obtain ⟨h0, h300⟩ := hfresh p hp
    refine ⟨by simp only [specStep, h0, zero_add], ?_⟩
    intro ops hlen
    have hmem : specStep (frameDelta now s.last) p ∈ (tick env now s).particles := by
      rw [htick]
      exact List.mem_append_right _ (List.mem_map_of_mem _ hp)
    have h5 : ((deltas now ops).length : α) ≤ 5 := by exact_mod_cast hlen
    obtain ⟨q, hq1, hq2⟩ := survive_run env ops (tick env now s) _ hmem (by
      rw [tick_last]
      simp only [specStep, h0, zero_add]
      linarith)
    rw [tick_last] at hq2
    exact ⟨q, hq1, by rw [advanceMany, advance_of_le _ _ (hkeep p hp)]; exact hq2⟩

/-- Witness of C19: the particles of `emit(1, 1.4)` on the demo host. -/
theorem minimum_survival_witness :
    UnitDraws demoHost ∧
      ∃ new, (emit demoHost 1 1.4 (init 0 demoCanvas)).particles =
        (init (0 : ℚ) demoCanvas).particles ++ new ∧ ∀ p ∈ new, p.life = 0 ∧ 300 ≤ p.ttl :=
  ⟨demo_unitDraws, (minimum_survival demoHost demo_unitDraws).1 1 1.4 (init 0 demoCanvas)⟩

/-- C20. Forward spray: with the real `π` and cosine, `Math.random()` in `[0, 1)`
and a power `> 0`, a particle built by `emit` has `vx = cos(angle) * speed > 0`,
and after any number of integration steps its `vx` is the initial one times a
power of 0.996, hence still `> 0`. -/
theorem forward_spray (env : Host ℝ) (htrig : RealTrig env) (hr : UnitDraws env)
    (power : ℝ) (hp : 0 < power) (o : Point ℝ) (d : ℕ) :
    0 < (newParticle env power o d).vx ∧
      ∀ (dts : List ℝ) (q : Particle ℝ), advanceMany dts (newParticle env power o d) = some q →
        q.vx = 0.996 ^ dts.length * (newParticle env power o d).vx ∧ 0 < q.vx := by
  obtain ⟨hpi, hcos, _⟩ := htrig
  have hpos : 0 < env.PI := hpi ▸ Real.pi_pos
  have ha := rand_mem env hr (-env.PI * 0.15) (env.PI * 0.35) (by nlinarith) d
  have hs := (rand_mem env hr 1.2 3.6 (by norm_num) (d + 1)).1
  have hc : 0 < env.cos (rand env (-env.PI * 0.15) (env.PI * 0.35) d) := by
    rw [hcos]
    apply Real.cos_pos_of_mem_Ioo
    rw [← hpi]
    constructor <;> nlinarith [ha.1, ha.2]
  have hvx : 0 < (newParticle env power o d).vx := by
    simp only [newParticle]
    exact mul_pos hc (mul_pos (by linarith) hp)
  refine ⟨hvx, ?_⟩
  intro dts q hq
  have h := advanceMany_vx dts _ q hq
  exact ⟨h, by rw [h]; positivity⟩

/-- Witness of C20: all draws equal to `1/2`, power 1.4. -/
theorem forward_spray_witness :
    0 < (newParticle (⟨Real.pi, Real.cos, Real.sin, fun _ => 1 / 2, none⟩ : Host ℝ) 1.4
      ⟨0, 0⟩ 0).vx :=
  (forward_spray ⟨Real.pi, Real.cos, Real.sin, fun _ => 1 / 2, none⟩ ⟨rfl, rfl, rfl⟩
    (fun _ => by norm_num) 1.4 (by norm_num) ⟨0, 0⟩ 0).1

end Claims

end Spark
